import Mathlib

/-!
Verification of the archive-extractor core of DiamondGnom/Archive_Exctractor_Extreme.

The repository contains three variants of the application:
  * `archive_extractor_universal.py`  (class ArchiveExtractorApp)
  * `PaxoInsight.py`, version 0.3.0   (class PaxoInsightApp, first half of the file)
  * `PaxoInsight.py`, "Safe Edition" 0.2.5 (second half of the file, with the
    `safe_extract_zip` / `safe_extract_tar` helpers)

The definitions below are a shallow embedding of the extraction core of these
variants: filename strings are lists of characters (so Python `str.endswith`,
slicing and `lower()` become list operations), the filesystem is a finite tree
of named entries, and archive files carry their would-be extraction result as
structured data (extraction of a corrupt archive raises, which the embedding
renders as the absence of that data).
-/

namespace AE

/-- Filenames and path strings, modelled as lists of characters so that
Python string operations (`endswith`, slicing, `lower`) become list
operations. -/
abbrev Str := List Char

/-- Python `str.lower` restricted to the ASCII range; the spec fixes
case-insensitivity to the ASCII range, and all extension tables are ASCII. -/
def lowerStr (s : Str) : Str := s.map Char.toLower

/-! ### Format tables

`SUPPORTED_FORMATS` keys and `SPECIAL_EXTENSIONS` of the three variants.
Python iterates dict keys in insertion order; `SPECIAL_EXTENSIONS` is a set
whose iteration order is unspecified, but the only use of the order is a
stable sort by length, and two distinct extensions of equal length can never
both be suffixes of one filename, so the literal order chosen here is
immaterial to every result below. -/

/-- `SUPPORTED_FORMATS` keys of PaxoInsight 0.3.0 (includes `.7z`). -/
def supported_formats : List Str :=
  [".zip".toList, ".7z".toList, ".tar".toList, ".tar.gz".toList, ".tgz".toList,
   ".tar.bz2".toList, ".tbz2".toList, ".tar.xz".toList, ".txz".toList]

/-- `SUPPORTED_FORMATS` keys of the Safe Edition and of
`archive_extractor_universal.py` (no `.7z`). -/
def supported_formats_safe : List Str :=
  [".zip".toList, ".tar".toList, ".tar.gz".toList, ".tgz".toList,
   ".tar.bz2".toList, ".tbz2".toList, ".tar.xz".toList, ".txz".toList]

/-- `SPECIAL_EXTENSIONS` of both PaxoInsight variants. -/
def special_extensions : List Str :=
  [".jar".toList, ".war".toList, ".exe".toList, ".dll".toList,
   ".apk".toList, ".ipa".toList, ".so".toList]

/-- `SPECIAL_EXTENSIONS` of `archive_extractor_universal.py` (no `.so`). -/
def special_extensions_univ : List Str :=
  [".jar".toList, ".war".toList, ".exe".toList, ".dll".toList,
   ".apk".toList, ".ipa".toList]

/-- `CLASS_EXTENSION`. -/
def class_extension : Str := ".class".toList

/-- `REPORT_EXTENSIONS` of the PaxoInsight variants:
`SPECIAL_EXTENSIONS ∪ {CLASS_EXTENSION, '.tar.gz', '.tar.bz2', '.tar.xz', '.gz'}`.
The Python value is a set; it is listed here without duplicates, and it is
only ever consulted for membership or sorted, so the order is immaterial. -/
def report_extensions : List Str :=
  special_extensions ++
  [class_extension, ".tar.gz".toList, ".tar.bz2".toList, ".tar.xz".toList, ".gz".toList]

/-- `MAX_DEPTH`. -/
def MAX_DEPTH : Nat := 5

/-! ### os.path.splitext and pathlib suffix/stem -/

/-- The final path component (everything after the last `/`). -/
def lastComponent (p : Str) : Str :=
  (p.reverse.takeWhile (fun c => c ≠ '/')).reverse

/-- `os.path.splitext(p)[1]`: the extension of the final component, i.e. the
part from the last dot on, except that it is empty when the component has no
dot or when every character before the last dot is itself a dot (so hidden
files like `.bashrc` have no extension). -/
def splitextExt (p : Str) : Str :=
  let base := lastComponent p
  let revAfterDot := base.reverse.takeWhile (fun c => c ≠ '.')
  if revAfterDot.length = base.length then []
  else
    let ext := (base.reverse.take (revAfterDot.length + 1)).reverse
    let root := base.take (base.length - ext.length)
    if root.all (fun c => c = '.') then [] else ext

/-- `os.path.splitext(p)[0]`: the string minus its `splitextExt`. -/
def splitextRoot (p : Str) : Str :=
  p.take (p.length - (splitextExt p).length)

/-- pathlib `Path(p).suffix`: the extension of the final component; empty
when the last dot is absent, leading, or trailing. -/
def pathSuffix (p : Str) : Str :=
  let nm := lastComponent p
  let revAfterDot := nm.reverse.takeWhile (fun c => c ≠ '.')
  if revAfterDot.length = nm.length then []
  else
    let i := nm.length - (revAfterDot.length + 1)
    if 0 < i ∧ i < nm.length - 1 then nm.drop i else []

/-- pathlib `Path(p).stem`: the final component minus its suffix. -/
def pathStem (p : Str) : Str :=
  let nm := lastComponent p
  nm.take (nm.length - (pathSuffix p).length)

/-! ### Sorting by length, descending (Python `sort(key=len, reverse=True)`)

Python's sort is stable; the insertion sort below places an element before
the first element of smaller-or-equal length, which reproduces stability for
the descending order. -/

def insByLen (x : Str) : List Str → List Str
  | [] => [x]
  | y :: ys => if y.length ≤ x.length then x :: y :: ys else y :: insByLen x ys

def sortByLenDesc : List Str → List Str
  | [] => []
  | x :: xs => insByLen x (sortByLenDesc xs)

/-! ### The format resolver `_get_extension` -/

/-- The candidate list built by PaxoInsight 0.3.0 `_get_extension`:
supported plus special extensions, `'.gz'` removed (it is not present anyway),
sorted by descending length. -/
def extCandidates : List Str :=
  sortByLenDesc ((supported_formats ++ special_extensions).filter
    (fun e => e ≠ ".gz".toList))

/-- PaxoInsight 0.3.0 `PaxoInsightApp._get_extension`: longest matching known
suffix of the lowercased path, `'.gz'` tried only after every other known
suffix has failed, with `os.path.splitext` as the final fallback. -/
def get_extension (path : Str) : Str :=
  match extCandidates.find? (fun e => decide (e <:+ lowerStr path)) with
  | some e => e
  | none =>
    if ".gz".toList <:+ lowerStr path then ".gz".toList
    else lowerStr (splitextExt path)

/-- The candidate list built by the Safe Edition `_get_extension`:
supported plus special extensions plus `'.gz'`, sorted by descending
length (so `'.gz'` sorts last among the known suffixes). -/
def extCandidatesSafe : List Str :=
  sortByLenDesc (supported_formats_safe ++ special_extensions ++ [".gz".toList])

/-- Safe Edition `PaxoInsightApp._get_extension`: longest matching known
suffix of the lowercased path, with pathlib `Path(path).suffix` as the
fallback. -/
def get_extension_safe (path : Str) : Str :=
  match extCandidatesSafe.find? (fun e => decide (e <:+ lowerStr path)) with
  | some e => e
  | none => lowerStr (pathSuffix path)

/-! ### Path resolution (pathlib join + resolve)

The Safe Edition checks every archive member with
`(target_dir / member).resolve()` followed by a string `startswith` test
against `str(target_dir.resolve())`.  Absolute paths are modelled as lists
of components; `resolve` collapses `.` and `..` lexically (none of the
crafted paths involve symlinks). -/

def splitSlashAux (cur : Str) : Str → List Str
  | [] => [cur.reverse]
  | c :: rest =>
    if c = '/' then cur.reverse :: splitSlashAux [] rest
    else splitSlashAux (c :: cur) rest

/-- Split a path string on `/` into components; a leading empty component
marks an absolute path. -/
def splitSlash (p : Str) : List Str := splitSlashAux [] p

/-- Does the path string start with `/`? -/
def isAbsPath : Str → Bool
  | c :: _ => c = '/'
  | [] => false

/-- Collapse `.` and `..` segments lexically, dropping empty components;
`..` at the root stays at the root. -/
def normalizeComps (cs : List Str) : List Str :=
  cs.foldl (fun acc c =>
    if c = [] ∨ c = ".".toList then acc
    else if c = "..".toList then acc.dropLast
    else acc ++ [c]) []

/-- pathlib `(base / member).resolve()` for an already-resolved absolute
`base` given as components: an absolute member replaces the base
(pathlib join semantics), and the joined path is collapsed lexically. -/
def resolveJoin (base : List Str) (member : Str) : List Str :=
  if isAbsPath member then normalizeComps (splitSlash member)
  else normalizeComps (base ++ splitSlash member)

/-- `str()` of the absolute path with the given components. -/
def renderPath (cs : List Str) : Str :=
  match cs with
  | [] => "/".toList
  | _ => cs.foldl (fun acc c => acc ++ "/".toList ++ c) []

/-! ### Safe Edition `safe_extract_zip` / `safe_extract_tar` -/

/-- Safe Edition `safe_extract_zip`, over the member-name list of the zip
archive (`zip_obj.namelist()`): for each member in order,
`member_path = (target_dir / member).resolve()` is computed and the
extraction aborts with `SecurityError(f"Unsafe path in ZIP: {member}")`
unless `str(member_path).startswith(str(target_dir.resolve()))`; otherwise
the member's bytes are streamed to `member_path`.  The result is the list
of resolved paths written (in order) together with the error message of the
aborting member, if any; members after an aborting member are not written. -/
def safe_extract_zip (targetDir : List Str) : List Str → List (List Str) × Option Str
  | [] => ([], none)
  | m :: rest =>
    let memberPath := resolveJoin targetDir m
    if renderPath targetDir <+: renderPath memberPath then
      let res := safe_extract_zip targetDir rest
      (memberPath :: res.1, res.2)
    else
      ([], some ("Unsafe path in ZIP: ".toList ++ m))

/-- Safe Edition `safe_extract_tar`, over the member-name list of the tar
archive (`tar_obj.getmembers()`), with the same per-member check; on
success `tar_obj.extract(member, target_dir)` materializes the member at
its resolved location. -/
def safe_extract_tar (targetDir : List Str) : List Str → List (List Str) × Option Str
  | [] => ([], none)
  | m :: rest =>
    let memberPath := resolveJoin targetDir m
    if renderPath targetDir <+: renderPath memberPath then
      let res := safe_extract_tar targetDir rest
      (memberPath :: res.1, res.2)
    else
      ([], some ("Unsafe path in TAR: ".toList ++ m))

/-! ### The filesystem tree

`os.walk` sees a tree of named files and directories.  A file's content is
recorded as far as the extractors can observe it: `plain` bytes (any attempt
to open them as an archive raises and is handled by the caller), `adata`
for a valid archive whose extraction materializes the given entries, and
`gzdata` for a valid gzip stream wrapping further content.  Extraction is
dispatched on the file *extension*; a file whose extension promises an
archive but whose data does not match raises on open (a corrupt archive). -/

mutual
inductive Entry where
  | file : Str → FData → Entry
  | dir : Str → EList → Entry

inductive FData where
  | plain : FData
  | adata : EList → FData
  | gzdata : FData → FData

inductive EList where
  | nil : EList
  | cons : Entry → EList → EList
end

def EList.append : EList → EList → EList
  | .nil, ys => ys
  | .cons x xs, ys => .cons x (EList.append xs ys)

instance : Append EList := ⟨EList.append⟩

mutual
/-- Structural size of an entry (file names are not counted; only the
tree structure matters for the recursion bounds below). -/
def esize : Entry → Nat
  | .file _ d => 1 + fsize d
  | .dir _ l => 1 + lsize l

def fsize : FData → Nat
  | .plain => 0
  | .adata l => 1 + lsize l
  | .gzdata d => 1 + fsize d

def lsize : EList → Nat
  | .nil => 0
  | .cons e r => 1 + esize e + lsize r
end

/-- Add an extension to the `unpacked` accumulator (`set.add`): the
accumulator is a duplicate-free list, ordered by first insertion. -/
def insertOnce (x : Str) (acc : List Str) : List Str :=
  if x ∈ acc then acc else acc ++ [x]

/-- One recursive `_recursive_unpack` call site: the directory being walked
when the call was made (`parent`), the directory passed as the new root
(`target`), and the depth passed. -/
structure RecCall where
  parent : List Str
  target : List Str
  depth : Nat

/-! ### PaxoInsight 0.3.0 `_recursive_unpack`

`os.walk` yields each directory's files before descending into its
subdirectories, and directories created while a directory's files are being
processed are not revisited by the walk that created them.  The walk is
modelled as an in-order traversal of each directory's entries; the
`unpacked` accumulator is a set, so the relative order of file and
subdirectory processing is immaterial to it.

`_get_extension(full)` is applied to the joined path, but every candidate
suffix starts with a dot and contains no separator, so a match never spans
a path separator and the resolver is applied to the filename alone.

In the `.gz` branch the code recurses with `self._recursive_unpack(root,
depth+1, unpacked)` — the directory *currently being walked*, not a fresh
target directory.  That fresh walk of `root` sees the freshly written
output file and the not-yet-visited remainder of the directory and
processes them at `depth+1`; the files it consumes are gone when the outer
snapshot loop resumes, which the model renders by handing the remainder to
the recursive call.  When the recursive call is cut off by the depth guard
the outer walk simply continues at the current depth.

The functions take explicit fuel, consumed one unit per call, so that they
are structurally recursive and computable by the kernel; the convergence
theorem below shows that `lsize es + 1` fuel always suffices and that the
result is the same for every sufficient fuel. -/

def walk_paxoF : Nat → Nat → List Str → EList → List Str → List RecCall →
    Option (EList × List Str × List RecCall)
  | 0, _, _, _, _, _ => none
  | _ + 1, _, _, .nil, acc, tr => some (.nil, acc, tr)
  | fuel + 1, depth, path, .cons (.dir name inner) rest, acc, tr =>
    if name = "__MACOSX".toList then
      -- the walk skips every root whose path contains '__MACOSX'
      match walk_paxoF fuel depth path rest acc tr with
      | none => none
      | some (rest2, acc2, tr2) => some (.cons (.dir name inner) rest2, acc2, tr2)
    else
      match walk_paxoF fuel depth (path ++ [name]) inner acc tr with
      | none => none
      | some (inner2, acc2, tr2) =>
        match walk_paxoF fuel depth path rest acc2 tr2 with
        | none => none
        | some (rest2, acc3, tr3) => some (.cons (.dir name inner2) rest2, acc3, tr3)
  | fuel + 1, depth, path, .cons (.file name data) rest, acc, tr =>
    if "._".toList <+: name then
      -- hidden resource-fork files are skipped
      match walk_paxoF fuel depth path rest acc tr with
      | none => none
      | some (rest2, acc2, tr2) => some (.cons (.file name data) rest2, acc2, tr2)
    else
      let iext := get_extension name
      if iext = ".gz".toList then
        match data with
        | .gzdata inner =>
          let out := Entry.file (splitextRoot name) inner
          let acc2 := insertOnce ".gz".toList acc
          let tr2 := tr ++ [⟨path, path, depth + 1⟩]
          if MAX_DEPTH ≤ depth + 1 then
            match walk_paxoF fuel depth path rest acc2 tr2 with
            | none => none
            | some (rest2, acc3, tr3) => some (.cons out rest2, acc3, tr3)
          else
            walk_paxoF fuel (depth + 1) path (.cons out rest) acc2 tr2
        | _ =>
          -- gzip.open raises on non-gzip data; caught, continue
          match walk_paxoF fuel depth path rest acc tr with
          | none => none
          | some (rest2, acc2, tr2) => some (.cons (.file name data) rest2, acc2, tr2)
      else if iext = ".7z".toList then
        let stripped := name.take (name.length - iext.length)
        let acc2 := insertOnce iext acc
        let tr2 := tr ++ [⟨path, path ++ [stripped], depth + 1⟩]
        match data with
        | .adata m =>
          if MAX_DEPTH ≤ depth + 1 then
            match walk_paxoF fuel depth path rest acc2 tr2 with
            | none => none
            | some (rest2, acc3, tr3) => some (.cons (.dir stripped m) rest2, acc3, tr3)
          else
            match walk_paxoF fuel (depth + 1) (path ++ [stripped]) m acc2 tr2 with
            | none => none
            | some (m2, acc3, tr3) =>
              match walk_paxoF fuel depth path rest acc3 tr3 with
              | none => none
              | some (rest2, acc4, tr4) => some (.cons (.dir stripped m2) rest2, acc4, tr4)
        | _ =>
          -- _extract_7z swallows the py7zr failure, so the tag is still
          -- recorded and the corrupt file still removed; the recursion into
          -- the never-created target directory walks nothing
          match walk_paxoF fuel depth path rest acc2 tr2 with
          | none => none
          | some (rest2, acc3, tr3) => some (rest2, acc3, tr3)
      else if iext ∈ special_extensions ∨ iext ∈ supported_formats then
        -- zip-style extraction for special extensions, tar-style or
        -- shutil.unpack_archive for the supported table: all of them
        -- materialize the archive's entries in the target directory
        let stripped := name.take (name.length - iext.length)
        match data with
        | .adata m =>
          let acc2 := insertOnce iext acc
          let tr2 := tr ++ [⟨path, path ++ [stripped], depth + 1⟩]
          if MAX_DEPTH ≤ depth + 1 then
            match walk_paxoF fuel depth path rest acc2 tr2 with
            | none => none
            | some (rest2, acc3, tr3) => some (.cons (.dir stripped m) rest2, acc3, tr3)
          else
            match walk_paxoF fuel (depth + 1) (path ++ [stripped]) m acc2 tr2 with
            | none => none
            | some (m2, acc3, tr3) =>
              match walk_paxoF fuel depth path rest acc3 tr3 with
              | none => none
              | some (rest2, acc4, tr4) => some (.cons (.dir stripped m2) rest2, acc4, tr4)
        | _ =>
          -- the zip/tar reader raises on open; caught, continue
          match walk_paxoF fuel depth path rest acc tr with
          | none => none
          | some (rest2, acc2, tr2) => some (.cons (.file name data) rest2, acc2, tr2)
      else
        -- unrecognized extension: not an archive, leave it alone
        match walk_paxoF fuel depth path rest acc tr with
        | none => none
        | some (rest2, acc2, tr2) => some (.cons (.file name data) rest2, acc2, tr2)

/-- PaxoInsight 0.3.0 `_recursive_unpack`: return immediately when
`depth >= MAX_DEPTH`, otherwise walk the tree. -/
def recursive_unpack_paxoF (fuel depth : Nat) (path : List Str) (es : EList)
    (acc : List Str) (tr : List RecCall) :
    Option (EList × List Str × List RecCall) :=
  if MAX_DEPTH ≤ depth then some (es, acc, tr)
  else walk_paxoF fuel depth path es acc tr

/-- PaxoInsight 0.3.0 `_recursive_unpack` with the canonical sufficient
fuel `lsize es + 1` (the convergence theorem below shows every sufficient
fuel yields this same value, so this is *the* result of the recursion). -/
def recursive_unpack_paxo (depth : Nat) (path : List Str) (es : EList)
    (acc : List Str) (tr : List RecCall) : EList × List Str × List RecCall :=
  (recursive_unpack_paxoF (lsize es + 1) depth path es acc tr).getD (es, acc, tr)

/-! ### `archive_extractor_universal.py` `_recursive_unpack`

The universal variant has no `.gz` and no `.7z` branch, resolves the inner
extension with bare `os.path.splitext(f)[1].lower()`, and recurses only
into the newly created target directory.  Special extensions are extracted
zip-style and supported ones tar-style or via `shutil.unpack_archive`; all
of these materialize the archive's entries in the target directory, record
the tag, remove the consumed archive and recurse, and any per-file
exception is caught and the loop continues. -/

def walk_univF : Nat → Nat → EList → List Str → Option (EList × List Str)
  | 0, _, _, _ => none
  | _ + 1, _, .nil, acc => some (.nil, acc)
  | fuel + 1, depth, .cons (.dir name inner) rest, acc =>
    if name = "__MACOSX".toList then
      match walk_univF fuel depth rest acc with
      | none => none
      | some (rest2, acc2) => some (.cons (.dir name inner) rest2, acc2)
    else
      match walk_univF fuel depth inner acc with
      | none => none
      | some (inner2, acc2) =>
        match walk_univF fuel depth rest acc2 with
        | none => none
        | some (rest2, acc3) => some (.cons (.dir name inner2) rest2, acc3)
  | fuel + 1, depth, .cons (.file name data) rest, acc =>
    if "._".toList <+: name then
      match walk_univF fuel depth rest acc with
      | none => none
      | some (rest2, acc2) => some (.cons (.file name data) rest2, acc2)
    else
      let iext := lowerStr (splitextExt name)
      if iext ∈ special_extensions_univ ∨ iext ∈ supported_formats_safe then
        match data with
        | .adata m =>
          let stripped := name.take (name.length - iext.length)
          let acc2 := insertOnce iext acc
          if MAX_DEPTH ≤ depth + 1 then
            match walk_univF fuel depth rest acc2 with
            | none => none
            | some (rest2, acc3) => some (.cons (.dir stripped m) rest2, acc3)
          else
            match walk_univF fuel (depth + 1) m acc2 with
            | none => none
            | some (m2, acc3) =>
              match walk_univF fuel depth rest acc3 with
              | none => none
              | some (rest2, acc4) => some (.cons (.dir stripped m2) rest2, acc4)
        | _ =>
          -- the reader raises on open; caught, continue with the next file
          match walk_univF fuel depth rest acc with
          | none => none
          | some (rest2, acc2) => some (.cons (.file name data) rest2, acc2)
      else
        match walk_univF fuel depth rest acc with
        | none => none
        | some (rest2, acc2) => some (.cons (.file name data) rest2, acc2)

/-- `ArchiveExtractorApp._recursive_unpack`: return immediately when
`depth >= MAX_DEPTH`, otherwise walk the tree. -/
def recursive_unpack_univF (fuel depth : Nat) (es : EList) (acc : List Str) :
    Option (EList × List Str) :=
  if MAX_DEPTH ≤ depth then some (es, acc)
  else walk_univF fuel depth es acc

/-- `ArchiveExtractorApp._recursive_unpack` with the canonical sufficient
fuel. -/
def recursive_unpack_univ (depth : Nat) (es : EList) (acc : List Str) :
    EList × List Str :=
  (recursive_unpack_univF (lsize es + 1) depth es acc).getD (es, acc)

/-- The body of the universal walk with the canonical sufficient fuel. -/
def walk_univ (depth : Nat) (es : EList) (acc : List Str) : EList × List Str :=
  (walk_univF (lsize es + 1) depth es acc).getD (es, acc)

/-- The processing of one directory entry by the universal walk: a
subdirectory is walked at the same depth, a recognized archive file with
readable data is extracted in place of itself and its contents walked one
level deeper (unless the depth guard cuts the recursion off), and every
other file is left untouched.  The walk processes a directory's entries
with this step, threading the accumulator. -/
def univ_step (depth : Nat) (e : Entry) (acc : List Str) : Entry × List Str :=
  match e with
  | .dir name inner =>
    if name = "__MACOSX".toList then (.dir name inner, acc)
    else
      let r := walk_univ depth inner acc
      (.dir name r.1, r.2)
  | .file name data =>
    if "._".toList <+: name then (.file name data, acc)
    else
      let iext := lowerStr (splitextExt name)
      if iext ∈ special_extensions_univ ∨ iext ∈ supported_formats_safe then
        match data with
        | .adata m =>
          let stripped := name.take (name.length - iext.length)
          let acc2 := insertOnce iext acc
          if MAX_DEPTH ≤ depth + 1 then (.dir stripped m, acc2)
          else
            let r := walk_univ (depth + 1) m acc2
            (.dir stripped r.1, r.2)
        | _ => (.file name data, acc)
      else (.file name data, acc)

/-! ### Top-level extraction (`_extract_and_list`) -/

/-- The error taxonomy of the top-level extraction: an unsupported format
(the Python `ValueError`), a reader failure on a corrupt archive, an
invalid gzip output filename (Safe Edition `ValueError`), and the Safe
Edition `SecurityError`. -/
inductive ExtractErr where
  | unsupported : Str → ExtractErr
  | corrupt : ExtractErr
  | invalidName : Str → ExtractErr
  | security : Str → ExtractErr

/-- PaxoInsight 0.3.0 `_extract_and_list` for an input file `name` with
content `data`: the extract directory is recreated fresh, the format is
resolved by `_get_extension`, the matching branch extracts into it
(`.7z` first — whose `_extract_7z` helper swallows its own failures —
then raw gzip, then zip-style for special extensions, then the supported
table, and otherwise `ValueError` is raised), then `os.remove(self.path)`
deletes the source, and `_recursive_unpack(extract_dir, 0, unpacked)`
processes nested archives.  The boolean records whether the source file
was removed; any raised error is caught before the removal. -/
def paxo_extract_and_list (name : Str) (data : FData) :
    Except ExtractErr (EList × List Str × List RecCall) × Bool :=
  let ext := get_extension name
  let extracted : Except ExtractErr (EList × List Str) :=
    if ext = ".7z".toList then
      match data with
      | .adata m => .ok (m, [])
      | _ => .ok (.nil, [])   -- _extract_7z reports and swallows the failure
    else if ext = ".gz".toList then
      match data with
      | .gzdata inner => .ok (.cons (.file (splitextRoot (lastComponent name)) inner) .nil, [])
      | _ => .error .corrupt
    else if ext ∈ special_extensions then
      match data with
      | .adata m => .ok (m, [])
      | _ => .error .corrupt
    else if ext ∈ supported_formats ∧ ext ≠ ".7z".toList then
      match data with
      | .adata m => .ok (m, [])
      | _ => .error .corrupt
    else .error (.unsupported ext)
  match extracted with
  | .error e => (.error e, false)
  | .ok (entries, _) =>
    (.ok (recursive_unpack_paxo 0 [] entries [] []), true)

/-- `ArchiveExtractorApp._extract_and_list` for an input file `name` with
content `data`: the format is resolved by bare `os.path.splitext`; special
extensions extract zip-style, supported ones tar-style — and there is *no*
else-branch, so for any other extension nothing is extracted and the run
falls straight through to `os.remove(self.path)`, which deletes the source
regardless.  The boolean records whether the source file was removed. -/
def univ_extract_and_list (name : Str) (data : FData) :
    Except ExtractErr (EList × List Str) × Bool :=
  let ext := lowerStr (splitextExt name)
  let extracted : Except ExtractErr EList :=
    if ext ∈ special_extensions_univ then
      match data with
      | .adata m => .ok m
      | _ => .error .corrupt
    else if ext ∈ supported_formats_safe then
      match data with
      | .adata m => .ok m
      | _ => .error .corrupt
    else .ok .nil
  match extracted with
  | .error e => (.error e, false)
  | .ok entries => (.ok (recursive_unpack_univ 0 entries []), true)

/-! ### Safe Edition single-stream gzip branch -/

/-- The `SAFE_FILENAME_REGEX = re.compile(r"[A-Za-z0-9._-]+$")` fullmatch
test: a nonempty string over ASCII letters, digits, dot, underscore and
hyphen. -/
def safe_filename_match (n : Str) : Bool :=
  !n.isEmpty && n.all (fun c => c.isAlphanum || c == '.' || c == '_' || c == '-')

/-- The `.gz` branch of the Safe Edition `_extract_and_list`, up to and
including the write of the single output file (the unpacked-tag recording
and the subsequent recursive unpack do not affect which file is written or
the errors raised before writing): the output name is the source path's
pathlib stem; it must fullmatch `SAFE_FILENAME_REGEX`, else
`ValueError` is raised before anything is written; then the resolved
target path must pass the `startswith` check, else `SecurityError`;
only then is the stream decompressed into the target file. -/
def safe_gz_branch (extractDir : List Str) (name : Str) (data : FData) :
    Except ExtractErr (EList × List Str) :=
  let target_name := pathStem name
  if safe_filename_match target_name = false then
    .error (.invalidName target_name)
  else if ¬ (renderPath extractDir <+: renderPath (resolveJoin extractDir target_name)) then
    .error (.security target_name)
  else
    match data with
    | .gzdata inner => .ok (.cons (.file target_name inner) .nil, [".gz".toList])
    | _ => .error .corrupt

/-! ### `_scan_disk` (PaxoInsight)

The scan walks the tree (same skip rules as the unpacker: `__MACOSX`
subtrees and `._` resource-fork files contribute nothing) and classifies
each file: names ending in `.class` (case-insensitively) go to the class
list, files whose resolved extension is special or `.gz` go to the special
list, and every nonempty resolved extension joins the observed set.  The
walk is written in state-passing form — it returns the tree it visited —
so that the model shows the scan performing no filesystem mutation.
Classification state is the triple `(exts, classes, specials)`. -/

def scan_walk (pre : Str) : EList → List Str × List Str × List Str →
    EList × (List Str × List Str × List Str)
  | .nil, r => (.nil, r)
  | .cons (.dir name inner) rest, r =>
    if name = "__MACOSX".toList then
      let b := scan_walk pre rest r
      (.cons (.dir name inner) b.1, b.2)
    else
      let a := scan_walk (pre ++ name ++ "/".toList) inner r
      let b := scan_walk pre rest a.2
      (.cons (.dir name a.1) b.1, b.2)
  | .cons (.file name data) rest, r =>
    if "._".toList <+: name then
      let b := scan_walk pre rest r
      (.cons (.file name data) b.1, b.2)
    else
      let rel := pre ++ name
      let r1 := if class_extension <:+ lowerStr name then
          (r.1, r.2.1 ++ [rel], r.2.2) else r
      let ext := get_extension rel
      let r2 := if ext ∈ special_extensions ∨ ext = ".gz".toList then
          (r1.1, r1.2.1, r1.2.2 ++ [rel]) else r1
      let r3 := if ext ≠ [] then (insertOnce ext r2.1, r2.2.1, r2.2.2) else r2
      let b := scan_walk pre rest r3
      (.cons (.file name data) b.1, b.2)

/-- PaxoInsight `_scan_disk`: scan a directory tree from empty
classification state; returns the (unchanged) tree and the triple
`(exts, classes, specials)`. -/
def scan_disk (es : EList) : EList × (List Str × List Str × List Str) :=
  scan_walk [] es ([], [], [])

/-! ### `save_report` -/

/-- Python string comparison: lexicographic on code points. -/
def lexLt : Str → Str → Bool
  | [], [] => false
  | [], _ :: _ => true
  | _ :: _, [] => false
  | a :: as, b :: bs => if a < b then true else if b < a then false else lexLt as bs

def insLex (x : Str) : List Str → List Str
  | [] => [x]
  | y :: ys => if lexLt x y then x :: y :: ys else y :: insLex x ys

/-- Python `sorted` on a set of strings (ascending, code-point order). -/
def sortLex : List Str → List Str
  | [] => []
  | x :: xs => insLex x (sortLex xs)

/-- Python `", ".join`. -/
def joinComma : List Str → Str
  | [] => []
  | [x] => x
  | x :: y :: rest => x ++ ", ".toList ++ joinComma (y :: rest)

/-- PaxoInsight `save_report`, modelled as the report text written for a
scan result `(exts, classes, specials)`: the header naming the sorted
report-worthy extensions, a blank line, one `<rel> -> .class` line per
class file, one `<rel> -> <final suffix>` line per special file, then one
`* -> <ext>` line for each observed extension not in `REPORT_EXTENSIONS`,
in sorted order.  The text is accumulated write by write, exactly as the
`rf.write` calls run. -/
def save_report (exts classes specials : List Str) : Str :=
  let r0 := "Отчет по файлам форматов: ".toList ++
    joinComma (sortLex report_extensions) ++ "\n\n".toList
  let r1 := classes.foldl (fun acc c =>
    acc ++ (c ++ " -> ".toList ++ class_extension ++ "\n".toList)) r0
  let r2 := specials.foldl (fun acc s =>
    acc ++ (s ++ " -> ".toList ++ lowerStr (splitextExt s) ++ "\n".toList)) r1
  (sortLex exts).foldl (fun acc e =>
    if e ∈ report_extensions then acc
    else acc ++ ("* -> ".toList ++ e ++ "\n".toList)) r2

/-- The report format exactly as claim C8 words it: identical to
`save_report` except that the wildcard lines cover every observed format
*not already covered by a classified file* — a format counts as covered
when some classified file's tag equals it (`.class` when the class list is
nonempty, or the suffix of some special file). -/
def save_report_claimed (exts classes specials : List Str) : Str :=
  let covered := (if classes.isEmpty then [] else [class_extension]) ++
    specials.map (fun s => lowerStr (splitextExt s))
  let r0 := "Отчет по файлам форматов: ".toList ++
    joinComma (sortLex report_extensions) ++ "\n\n".toList
  let r1 := classes.foldl (fun acc c =>
    acc ++ (c ++ " -> ".toList ++ class_extension ++ "\n".toList)) r0
  let r2 := specials.foldl (fun acc s =>
    acc ++ (s ++ " -> ".toList ++ lowerStr (splitextExt s) ++ "\n".toList)) r1
  (sortLex exts).foldl (fun acc e =>
    if e ∈ covered then acc
    else acc ++ ("* -> ".toList ++ e ++ "\n".toList)) r2

/-- The report format as amended, stated declaratively as the
concatenation of the header, the blank line, the block of class lines, the
block of special lines, and the block of wildcard lines for the sorted
observed extensions outside the report-worthy set. -/
def save_report_amended (exts classes specials : List Str) : Str :=
  "Отчет по файлам форматов: ".toList ++
    joinComma (sortLex report_extensions) ++ "\n\n".toList ++
  (classes.map (fun c => c ++ " -> ".toList ++ class_extension ++ "\n".toList)).flatten ++
  (specials.map (fun s =>
    s ++ " -> ".toList ++ lowerStr (splitextExt s) ++ "\n".toList)).flatten ++
  (((sortLex exts).filter (fun e => decide (e ∉ report_extensions))).map
    (fun e => "* -> ".toList ++ e ++ "\n".toList)).flatten

/-! ### Concrete input trees used by the depth-bound scenario -/

/-- A chain of six nested archives: `b1.zip` ⊃ `b2.zip` ⊃ … ⊃ `b5.zip` ⊃
`f.tar` (which contains one plain file `x`).  Placed inside a top-level
input archive this gives an input nested six levels deep, one more than
`MAX_DEPTH`. -/
def chain6 : EList :=
  .cons (.file "b1.zip".toList (.adata
    (.cons (.file "b2.zip".toList (.adata
      (.cons (.file "b3.zip".toList (.adata
        (.cons (.file "b4.zip".toList (.adata
          (.cons (.file "b5.zip".toList (.adata
            (.cons (.file "f.tar".toList (.adata
              (.cons (.file "x".toList .plain) .nil))) .nil))) .nil))) .nil))) .nil))) .nil))) .nil

/-- The tree left on disk after extracting `a.zip` (whose content is
`chain6`) and recursively unpacking: the first five nested archives are
fully extracted into directories, and the sixth-level archive `f.tar` is
still an archive file. -/
def chain6Result : EList :=
  .cons (.dir "b1".toList
    (.cons (.dir "b2".toList
      (.cons (.dir "b3".toList
        (.cons (.dir "b4".toList
          (.cons (.dir "b5".toList
            (.cons (.file "f.tar".toList (.adata
              (.cons (.file "x".toList .plain) .nil))) .nil)) .nil)) .nil)) .nil)) .nil)) .nil

/-- The five recursion calls made while unpacking `chain6`: each one
strictly one level deeper, each targeting the newly created directory. -/
def chain6Trace : List RecCall :=
  [⟨[], ["b1".toList], 1⟩,
   ⟨["b1".toList], ["b1".toList, "b2".toList], 2⟩,
   ⟨["b1".toList, "b2".toList], ["b1".toList, "b2".toList, "b3".toList], 3⟩,
   ⟨["b1".toList, "b2".toList, "b3".toList],
    ["b1".toList, "b2".toList, "b3".toList, "b4".toList], 4⟩,
   ⟨["b1".toList, "b2".toList, "b3".toList, "b4".toList],
    ["b1".toList, "b2".toList, "b3".toList, "b4".toList, "b5".toList], 5⟩]

end AE

namespace AE

/-! ### Helper lemmas -/

/-- Two suffixes of one list are comparable; so a list with suffix `a` cannot
also have suffix `b` when neither of `a`, `b` is a suffix of the other. -/
theorem not_suffix_of_incomparable {l a b : Str} (ha : a <:+ l)
    (h1 : ¬ a <:+ b) (h2 : ¬ b <:+ a) : ¬ b <:+ l := fun hb =>
  (List.suffix_or_suffix_of_suffix ha hb).elim h1 h2

@[simp] theorem lsize_nil : lsize .nil = 0 := rfl

@[simp] theorem lsize_cons (e : Entry) (r : EList) :
    lsize (.cons e r) = 1 + esize e + lsize r := rfl

@[simp] theorem esize_file (n : Str) (d : FData) :
    esize (.file n d) = 1 + fsize d := rfl

@[simp] theorem esize_dir (n : Str) (l : EList) :
    esize (.dir n l) = 1 + lsize l := rfl

@[simp] theorem fsize_plain : fsize .plain = 0 := rfl

@[simp] theorem fsize_adata (l : EList) : fsize (.adata l) = 1 + lsize l := rfl

@[simp] theorem fsize_gzdata (d : FData) : fsize (.gzdata d) = 1 + fsize d := rfl

/-- The universal walk converges: for every input there is a single result
value that the walk returns under every call budget exceeding `lsize es`. -/
theorem walk_univF_converges :
    ∀ (n : Nat) (es : EList), lsize es ≤ n → ∀ (depth : Nat) (acc : List Str),
      ∃ v, ∀ fuel, lsize es < fuel → walk_univF fuel depth es acc = some v := by
  intro n
  induction n using Nat.strong_induction_on with
  | _ n ih =>
    intro es hes depth acc
    cases es with
    | nil =>
      refine ⟨(.nil, acc), fun fuel hf => ?_⟩
      match fuel, hf with
      | fuel + 1, _ => rfl
    | cons e rest =>
      cases e with
      | dir name inner =>
        simp only [lsize_cons, esize_dir] at hes
        by_cases hmac : name = "__MACOSX".toList
        · obtain ⟨⟨rest2, acc2⟩, hvr⟩ :=
            ih (lsize rest) (by omega) rest le_rfl depth acc
          refine ⟨(.cons (.dir name inner) rest2, acc2), fun fuel hf => ?_⟩
          simp only [lsize_cons, esize_dir] at hf
          match fuel, hf with
          | fuel + 1, hf =>
            have h1 : lsize rest < fuel := by omega
            simp only [walk_univF, if_pos hmac, hvr fuel h1]
        · obtain ⟨⟨inner2, acc2⟩, hvi⟩ :=
            ih (lsize inner) (by omega) inner le_rfl depth acc
          obtain ⟨⟨rest2, acc3⟩, hvr⟩ :=
            ih (lsize rest) (by omega) rest le_rfl depth acc2
          refine ⟨(.cons (.dir name inner2) rest2, acc3), fun fuel hf => ?_⟩
          simp only [lsize_cons, esize_dir] at hf
          match fuel, hf with
          | fuel + 1, hf =>
            have h1 : lsize inner < fuel := by omega
            have h2 : lsize rest < fuel := by omega
            simp only [walk_univF, if_neg hmac, hvi fuel h1, hvr fuel h2]
      | file name data =>
        simp only [lsize_cons, esize_file] at hes
        by_cases hskip : "._".toList <+: name
        · obtain ⟨⟨rest2, acc2⟩, hvr⟩ :=
            ih (lsize rest) (by omega) rest le_rfl depth acc
          refine ⟨(.cons (.file name data) rest2, acc2), fun fuel hf => ?_⟩
          simp only [lsize_cons, esize_file] at hf
          match fuel, hf with
          | fuel + 1, hf =>
            have h1 : lsize rest < fuel := by omega
            simp only [walk_univF, if_pos hskip, hvr fuel h1]
        · by_cases hrec : lowerStr (splitextExt name) ∈ special_extensions_univ ∨
              lowerStr (splitextExt name) ∈ supported_formats_safe
          · cases data with
            | adata m =>
              simp only [fsize_adata] at hes
              by_cases hguard : MAX_DEPTH ≤ depth + 1
              · obtain ⟨⟨rest2, acc3⟩, hvr⟩ :=
                  ih (lsize rest) (by omega) rest le_rfl depth
                    (insertOnce (lowerStr (splitextExt name)) acc)
                refine ⟨(.cons (.dir (name.take (name.length -
                    (lowerStr (splitextExt name)).length)) m) rest2, acc3),
                  fun fuel hf => ?_⟩
                simp only [lsize_cons, esize_file, fsize_adata] at hf
                match fuel, hf with
                | fuel + 1, hf =>
                  have h1 : lsize rest < fuel := by omega
                  simp only [walk_univF, if_neg hskip, if_pos hrec, if_pos hguard,
                    hvr fuel h1]
              · obtain ⟨⟨m2, acc3⟩, hvm⟩ :=
                  ih (lsize m) (by omega) m le_rfl (depth + 1)
                    (insertOnce (lowerStr (splitextExt name)) acc)
                obtain ⟨⟨rest2, acc4⟩, hvr⟩ :=
                  ih (lsize rest) (by omega) rest le_rfl depth acc3
                refine ⟨(.cons (.dir (name.take (name.length -
                    (lowerStr (splitextExt name)).length)) m2) rest2, acc4),
                  fun fuel hf => ?_⟩
                simp only [lsize_cons, esize_file, fsize_adata] at hf
                match fuel, hf with
                | fuel + 1, hf =>
                  have h1 : lsize m < fuel := by omega
                  have h2 : lsize rest < fuel := by omega
                  simp only [walk_univF, if_neg hskip, if_pos hrec, if_neg hguard,
                    hvm fuel h1, hvr fuel h2]
            | plain =>
              obtain ⟨⟨rest2, acc2⟩, hvr⟩ :=
                ih (lsize rest) (by omega) rest le_rfl depth acc
              refine ⟨(.cons (.file name .plain) rest2, acc2), fun fuel hf => ?_⟩
              simp only [lsize_cons, esize_file] at hf
              match fuel, hf with
              | fuel + 1, hf =>
                have h1 : lsize rest < fuel := by omega
                simp only [walk_univF, if_neg hskip, if_pos hrec, hvr fuel h1]
            | gzdata d =>
              obtain ⟨⟨rest2, acc2⟩, hvr⟩ :=
                ih (lsize rest) (by omega) rest le_rfl depth acc
              refine ⟨(.cons (.file name (.gzdata d)) rest2, acc2), fun fuel hf => ?_⟩
              simp only [lsize_cons, esize_file] at hf
              match fuel, hf with
              | fuel + 1, hf =>
                have h1 : lsize rest < fuel := by omega
                simp only [walk_univF, if_neg hskip, if_pos hrec, hvr fuel h1]
          · obtain ⟨⟨rest2, acc2⟩, hvr⟩ :=
              ih (lsize rest) (by omega) rest le_rfl depth acc
            refine ⟨(.cons (.file name data) rest2, acc2), fun fuel hf => ?_⟩
            simp only [lsize_cons, esize_file] at hf
            match fuel, hf with
            | fuel + 1, hf =>
              have h1 : lsize rest < fuel := by omega
              simp only [walk_univF, if_neg hskip, if_neg hrec, hvr fuel h1]

/-- The 0.3.0 walk converges: for every input there is a single result
value that the walk returns under every call budget exceeding `lsize es` —
the recursion is bounded on every input, because the walk only descends
into structurally smaller trees and every `_recursive_unpack` call
strictly increases the depth toward the `MAX_DEPTH` guard. -/
theorem walk_paxoF_converges :
    ∀ (n : Nat) (es : EList), lsize es ≤ n →
      ∀ (depth : Nat) (path : List Str) (acc : List Str) (tr : List RecCall),
      ∃ v, ∀ fuel, lsize es < fuel → walk_paxoF fuel depth path es acc tr = some v := by
  intro n
  induction n using Nat.strong_induction_on with
  | _ n ih =>
    intro es hes depth path acc tr
    cases es with
    | nil =>
      refine ⟨(.nil, acc, tr), fun fuel hf => ?_⟩
      match fuel, hf with
      | fuel + 1, _ => rfl
    | cons e rest =>
      cases e with
      | dir name inner =>
        simp only [lsize_cons, esize_dir] at hes
        by_cases hmac : name = "__MACOSX".toList
        · obtain ⟨⟨rest2, acc2, tr2⟩, hvr⟩ :=
            ih (lsize rest) (by omega) rest le_rfl depth path acc tr
          refine ⟨(.cons (.dir name inner) rest2, acc2, tr2), fun fuel hf => ?_⟩
          simp only [lsize_cons, esize_dir] at hf
          match fuel, hf with
          | fuel + 1, hf =>
            have h1 : lsize rest < fuel := by omega
            simp only [walk_paxoF, if_pos hmac, hvr fuel h1]
        · obtain ⟨⟨inner2, acc2, tr2⟩, hvi⟩ :=
            ih (lsize inner) (by omega) inner le_rfl depth (path ++ [name]) acc tr
          obtain ⟨⟨rest2, acc3, tr3⟩, hvr⟩ :=
            ih (lsize rest) (by omega) rest le_rfl depth path acc2 tr2
          refine ⟨(.cons (.dir name inner2) rest2, acc3, tr3), fun fuel hf => ?_⟩
          simp only [lsize_cons, esize_dir] at hf
          match fuel, hf with
          | fuel + 1, hf =>
            have h1 : lsize inner < fuel := by omega
            have h2 : lsize rest < fuel := by omega
            simp only [walk_paxoF, if_neg hmac, hvi fuel h1, hvr fuel h2]
      | file name data =>
        simp only [lsize_cons, esize_file] at hes
        by_cases hskip : "._".toList <+: name
        · obtain ⟨⟨rest2, acc2, tr2⟩, hvr⟩ :=
            ih (lsize rest) (by omega) rest le_rfl depth path acc tr
          refine ⟨(.cons (.file name data) rest2, acc2, tr2), fun fuel hf => ?_⟩
          simp only [lsize_cons, esize_file] at hf
          match fuel, hf with
          | fuel + 1, hf =>
            have h1 : lsize rest < fuel := by omega
            simp only [walk_paxoF, if_pos hskip, hvr fuel h1]
        · by_cases hgz : get_extension name = ".gz".toList
          · cases data with
            | gzdata inner =>
              simp only [fsize_gzdata] at hes
              by_cases hguard : MAX_DEPTH ≤ depth + 1
              · obtain ⟨⟨rest2, acc3, tr3⟩, hvr⟩ :=
                  ih (lsize rest) (by omega) rest le_rfl depth path
                    (insertOnce ".gz".toList acc) (tr ++ [⟨path, path, depth + 1⟩])
                refine ⟨(.cons (.file (splitextRoot name) inner) rest2, acc3, tr3),
                  fun fuel hf => ?_⟩
                simp only [lsize_cons, esize_file, fsize_gzdata] at hf
                match fuel, hf with
                | fuel + 1, hf =>
                  have h1 : lsize rest < fuel := by omega
                  simp only [walk_paxoF, if_neg hskip, if_pos hgz, if_pos hguard,
                    hvr fuel h1]
              · have hstep : lsize (EList.cons (Entry.file (splitextRoot name) inner) rest) ≤
                    1 + (1 + fsize inner) + lsize rest := by
                  simp only [lsize_cons, esize_file]; omega
                obtain ⟨⟨rest2, acc3, tr3⟩, hvr⟩ :=
                  ih (1 + (1 + fsize inner) + lsize rest) (by omega)
                    (.cons (.file (splitextRoot name) inner) rest) hstep
                    (depth + 1) path (insertOnce ".gz".toList acc)
                    (tr ++ [⟨path, path, depth + 1⟩])
                refine ⟨(rest2, acc3, tr3), fun fuel hf => ?_⟩
                simp only [lsize_cons, esize_file, fsize_gzdata] at hf
                match fuel, hf with
                | fuel + 1, hf =>
                  have h1 : lsize (EList.cons (Entry.file (splitextRoot name) inner) rest) <
                      fuel := by
                    simp only [lsize_cons, esize_file]; omega
                  simp only [walk_paxoF, if_neg hskip, if_pos hgz, if_neg hguard,
                    hvr fuel h1]
            | plain =>
              obtain ⟨⟨rest2, acc2, tr2⟩, hvr⟩ :=
                ih (lsize rest) (by omega) rest le_rfl depth path acc tr
              refine ⟨(.cons (.file name .plain) rest2, acc2, tr2), fun fuel hf => ?_⟩
              simp only [lsize_cons, esize_file] at hf
              match fuel, hf with
              | fuel + 1, hf =>
                have h1 : lsize rest < fuel := by omega
                simp only [walk_paxoF, if_neg hskip, if_pos hgz, hvr fuel h1]
            | adata m =>
              obtain ⟨⟨rest2, acc2, tr2⟩, hvr⟩ :=
                ih (lsize rest) (by omega) rest le_rfl depth path acc tr
              refine ⟨(.cons (.file name (.adata m)) rest2, acc2, tr2), fun fuel hf => ?_⟩
              simp only [lsize_cons, esize_file] at hf
              match fuel, hf with
              | fuel + 1, hf =>
                have h1 : lsize rest < fuel := by omega
                simp only [walk_paxoF, if_neg hskip, if_pos hgz, hvr fuel h1]
          · by_cases h7z : get_extension name = ".7z".toList
            · cases data with
              | adata m =>
                simp only [fsize_adata] at hes
                by_cases hguard : MAX_DEPTH ≤ depth + 1
                · obtain ⟨⟨rest2, acc3, tr3⟩, hvr⟩ :=
                    ih (lsize rest) (by omega) rest le_rfl depth path
                      (insertOnce (get_extension name) acc)
                      (tr ++ [⟨path, path ++ [name.take (name.length -
                        (get_extension name).length)], depth + 1⟩])
                  refine ⟨(.cons (.dir (name.take (name.length -
                      (get_extension name).length)) m) rest2, acc3, tr3),
                    fun fuel hf => ?_⟩
                  simp only [lsize_cons, esize_file, fsize_adata] at hf
                  match fuel, hf with
                  | fuel + 1, hf =>
                    have h1 : lsize rest < fuel := by omega
                    simp only [walk_paxoF, if_neg hskip, if_neg hgz, if_pos h7z,
                      if_pos hguard, hvr fuel h1]
                · obtain ⟨⟨m2, acc3, tr3⟩, hvm⟩ :=
                    ih (lsize m) (by omega) m le_rfl (depth + 1)
                      (path ++ [name.take (name.length - (get_extension name).length)])
                      (insertOnce (get_extension name) acc)
                      (tr ++ [⟨path, path ++ [name.take (name.length -
                        (get_extension name).length)], depth + 1⟩])
                  obtain ⟨⟨rest2, acc4, tr4⟩, hvr⟩ :=
                    ih (lsize rest) (by omega) rest le_rfl depth path acc3 tr3
                  refine ⟨(.cons (.dir (name.take (name.length -
                      (get_extension name).length)) m2) rest2, acc4, tr4),
                    fun fuel hf => ?_⟩
                  simp only [lsize_cons, esize_file, fsize_adata] at hf
                  match fuel, hf with
                  | fuel + 1, hf =>
                    have h1 : lsize m < fuel := by omega
                    have h2 : lsize rest < fuel := by omega
                    simp only [walk_paxoF, if_neg hskip, if_neg hgz, if_pos h7z,
                      if_neg hguard, hvm fuel h1, hvr fuel h2]
              | plain =>
                obtain ⟨⟨rest2, acc3, tr3⟩, hvr⟩ :=
                  ih (lsize rest) (by omega) rest le_rfl depth path
                    (insertOnce (get_extension name) acc)
                    (tr ++ [⟨path, path ++ [name.take (name.length -
                      (get_extension name).length)], depth + 1⟩])
                refine ⟨(rest2, acc3, tr3), fun fuel hf => ?_⟩
                simp only [lsize_cons, esize_file] at hf
                match fuel, hf with
                | fuel + 1, hf =>
                  have h1 : lsize rest < fuel := by omega
                  simp only [walk_paxoF, if_neg hskip, if_neg hgz, if_pos h7z,
                    hvr fuel h1]
              | gzdata d =>
                obtain ⟨⟨rest2, acc3, tr3⟩, hvr⟩ :=
                  ih (lsize rest) (by omega) rest le_rfl depth path
                    (insertOnce (get_extension name) acc)
                    (tr ++ [⟨path, path ++ [name.take (name.length -
                      (get_extension name).length)], depth + 1⟩])
                refine ⟨(rest2, acc3, tr3), fun fuel hf => ?_⟩
                simp only [lsize_cons, esize_file] at hf
                match fuel, hf with
                | fuel + 1, hf =>
                  have h1 : lsize rest < fuel := by omega
                  simp only [walk_paxoF, if_neg hskip, if_neg hgz, if_pos h7z,
                    hvr fuel h1]
            · by_cases hrec : get_extension name ∈ special_extensions ∨
                  get_extension name ∈ supported_formats
              · cases data with
                | adata m =>
                  simp only [fsize_adata] at hes
                  by_cases hguard : MAX_DEPTH ≤ depth + 1
                  · obtain ⟨⟨rest2, acc3, tr3⟩, hvr⟩ :=
                      ih (lsize rest) (by omega) rest le_rfl depth path
                        (insertOnce (get_extension name) acc)
                        (tr ++ [⟨path, path ++ [name.take (name.length -
                          (get_extension name).length)], depth + 1⟩])
                    refine ⟨(.cons (.dir (name.take (name.length -
                        (get_extension name).length)) m) rest2, acc3, tr3),
                      fun fuel hf => ?_⟩
                    simp only [lsize_cons, esize_file, fsize_adata] at hf
                    match fuel, hf with
                    | fuel + 1, hf =>
                      have h1 : lsize rest < fuel := by omega
                      simp only [walk_paxoF, if_neg hskip, if_neg hgz, if_neg h7z,
                        if_pos hrec, if_pos hguard, hvr fuel h1]
                  · obtain ⟨⟨m2, acc3, tr3⟩, hvm⟩ :=
                      ih (lsize m) (by omega) m le_rfl (depth + 1)
                        (path ++ [name.take (name.length - (get_extension name).length)])
                        (insertOnce (get_extension name) acc)
                        (tr ++ [⟨path, path ++ [name.take (name.length -
                          (get_extension name).length)], depth + 1⟩])
                    obtain ⟨⟨rest2, acc4, tr4⟩, hvr⟩ :=
                      ih (lsize rest) (by omega) rest le_rfl depth path acc3 tr3
                    refine ⟨(.cons (.dir (name.take (name.length -
                        (get_extension name).length)) m2) rest2, acc4, tr4),
                      fun fuel hf => ?_⟩
                    simp only [lsize_cons, esize_file, fsize_adata] at hf
                    match fuel, hf with
                    | fuel + 1, hf =>
                      have h1 : lsize m < fuel := by omega
                      have h2 : lsize rest < fuel := by omega
                      simp only [walk_paxoF, if_neg hskip, if_neg hgz, if_neg h7z,
                        if_pos hrec, if_neg hguard, hvm fuel h1, hvr fuel h2]
                | plain =>
                  obtain ⟨⟨rest2, acc2, tr2⟩, hvr⟩ :=
                    ih (lsize rest) (by omega) rest le_rfl depth path acc tr
                  refine ⟨(.cons (.file name .plain) rest2, acc2, tr2),
                    fun fuel hf => ?_⟩
                  simp only [lsize_cons, esize_file] at hf
                  match fuel, hf with
                  | fuel + 1, hf =>
                    have h1 : lsize rest < fuel := by omega
                    simp only [walk_paxoF, if_neg hskip, if_neg hgz, if_neg h7z,
                      if_pos hrec, hvr fuel h1]
                | gzdata d =>
                  obtain ⟨⟨rest2, acc2, tr2⟩, hvr⟩ :=
                    ih (lsize rest) (by omega) rest le_rfl depth path acc tr
                  refine ⟨(.cons (.file name (.gzdata d)) rest2, acc2, tr2),
                    fun fuel hf => ?_⟩
                  simp only [lsize_cons, esize_file] at hf
                  match fuel, hf with
                  | fuel + 1, hf =>
                    have h1 : lsize rest < fuel := by omega
                    simp only [walk_paxoF, if_neg hskip, if_neg hgz, if_neg h7z,
                      if_pos hrec, hvr fuel h1]
              · obtain ⟨⟨rest2, acc2, tr2⟩, hvr⟩ :=
                  ih (lsize rest) (by omega) rest le_rfl depth path acc tr
                refine ⟨(.cons (.file name data) rest2, acc2, tr2), fun fuel hf => ?_⟩
                simp only [lsize_cons, esize_file] at hf
                match fuel, hf with
                | fuel + 1, hf =>
                  have h1 : lsize rest < fuel := by omega
                  simp only [walk_paxoF, if_neg hskip, if_neg hgz, if_neg h7z,
                    if_neg hrec, hvr fuel h1]

/-- Every sufficient budget gives the 0.3.0 walk the same result. -/
theorem walk_paxoF_stable (depth : Nat) (path : List Str) (es : EList)
    (acc : List Str) (tr : List RecCall) {fuel : Nat} (hf : lsize es < fuel) :
    walk_paxoF fuel depth path es acc tr =
      walk_paxoF (lsize es + 1) depth path es acc tr := by
  obtain ⟨v, hv⟩ := walk_paxoF_converges (lsize es) es le_rfl depth path acc tr
  rw [hv fuel hf, hv (lsize es + 1) (Nat.lt_succ_self _)]

/-- Every budget exceeding `lsize es` makes `_recursive_unpack` (0.3.0)
return the canonical result. -/
theorem recursive_unpack_paxoF_eq (fuel depth : Nat) (path : List Str)
    (es : EList) (acc : List Str) (tr : List RecCall) (hf : lsize es < fuel) :
    recursive_unpack_paxoF fuel depth path es acc tr =
      some (recursive_unpack_paxo depth path es acc tr) := by
  obtain ⟨v, hv⟩ := walk_paxoF_converges (lsize es) es le_rfl depth path acc tr
  simp only [recursive_unpack_paxoF, recursive_unpack_paxo]
  by_cases hd : MAX_DEPTH ≤ depth
  · rw [if_pos hd, if_pos hd]; rfl
  · rw [if_neg hd, if_neg hd, hv fuel hf, hv (lsize es + 1) (Nat.lt_succ_self _)]
    rfl

/-- Every budget exceeding `lsize es` gives the universal walk the canonical result. -/
theorem walk_univF_eq_walk_univ (depth : Nat) (es : EList) (acc : List Str)
    {fuel : Nat} (hf : lsize es < fuel) :
    walk_univF fuel depth es acc = some (walk_univ depth es acc) := by
  obtain ⟨v, hv⟩ := walk_univF_converges (lsize es) es le_rfl depth acc
  have h1 := hv fuel hf
  have h2 := hv (lsize es + 1) (Nat.lt_succ_self _)
  unfold walk_univ
  rw [h1, h2]
  rfl

theorem walk_univ_nil (depth : Nat) (acc : List Str) :
    walk_univ depth .nil acc = (.nil, acc) := rfl

/-- The universal walk processes a directory's entries one at a time with
`univ_step`, threading the accumulator. -/
theorem walk_univ_cons (depth : Nat) (e : Entry) (rest : EList) (acc : List Str) :
    walk_univ depth (.cons e rest) acc =
      (.cons (univ_step depth e acc).1
        (walk_univ depth rest (univ_step depth e acc).2).1,
       (walk_univ depth rest (univ_step depth e acc).2).2) := by
  have hrest : lsize rest < lsize (EList.cons e rest) := by
    simp only [lsize_cons]; omega
  have key : walk_univF (lsize (EList.cons e rest) + 1) depth (.cons e rest) acc =
      some (.cons (univ_step depth e acc).1
        (walk_univ depth rest (univ_step depth e acc).2).1,
       (walk_univ depth rest (univ_step depth e acc).2).2) := by
    cases e with
    | dir name inner =>
      have hinner : lsize inner < lsize (EList.cons (Entry.dir name inner) rest) := by
        simp only [lsize_cons, esize_dir]; omega
      by_cases hmac : name = "__MACOSX".toList
      · simp only [walk_univF]
        rw [if_pos hmac, walk_univF_eq_walk_univ depth rest acc hrest]
        simp only [univ_step]
        rw [if_pos hmac]
      · simp only [walk_univF]
        rw [if_neg hmac, walk_univF_eq_walk_univ depth inner acc hinner]
        simp only [univ_step]
        rw [if_neg hmac]
        rw [walk_univF_eq_walk_univ depth rest _ hrest]
    | file name data =>
      by_cases hskip : "._".toList <+: name
      · simp only [walk_univF]
        rw [if_pos hskip, walk_univF_eq_walk_univ depth rest acc hrest]
        simp only [univ_step]
        rw [if_pos hskip]
      · by_cases hrec : lowerStr (splitextExt name) ∈ special_extensions_univ ∨
            lowerStr (splitextExt name) ∈ supported_formats_safe
        · cases data with
          | adata m =>
            have hm : lsize m <
                lsize (EList.cons (Entry.file name (.adata m)) rest) := by
              simp only [lsize_cons, esize_file, fsize_adata]; omega
            by_cases hguard : MAX_DEPTH ≤ depth + 1
            · simp only [walk_univF]
              rw [if_neg hskip, if_pos hrec, if_pos hguard,
                walk_univF_eq_walk_univ depth rest
                  (insertOnce (lowerStr (splitextExt name)) acc) hrest]
              simp only [univ_step]
              rw [if_neg hskip, if_pos hrec, if_pos hguard]
            · simp only [walk_univF]
              rw [if_neg hskip, if_pos hrec, if_neg hguard,
                walk_univF_eq_walk_univ (depth + 1) m
                  (insertOnce (lowerStr (splitextExt name)) acc) hm]
              simp only [univ_step]
              rw [if_neg hskip, if_pos hrec, if_neg hguard]
              rw [walk_univF_eq_walk_univ depth rest _ hrest]
          | plain =>
            simp only [walk_univF]
            rw [if_neg hskip, if_pos hrec,
              walk_univF_eq_walk_univ depth rest acc hrest]
            simp only [univ_step]
            rw [if_neg hskip, if_pos hrec]
          | gzdata d =>
            simp only [walk_univF]
            rw [if_neg hskip, if_pos hrec,
              walk_univF_eq_walk_univ depth rest acc hrest]
            simp only [univ_step]
            rw [if_neg hskip, if_pos hrec]
        · simp only [walk_univF]
          rw [if_neg hskip, if_neg hrec,
            walk_univF_eq_walk_univ depth rest acc hrest]
          simp only [univ_step]
          rw [if_neg hskip, if_neg hrec]
  calc walk_univ depth (.cons e rest) acc
      = (walk_univF (lsize (EList.cons e rest) + 1) depth
          (.cons e rest) acc).getD (.cons e rest, acc) := rfl
    _ = _ := by rw [key]; rfl

@[simp] theorem EList.nil_append (ys : EList) : EList.nil ++ ys = ys := rfl

@[simp] theorem EList.cons_append (x : Entry) (xs ys : EList) :
    EList.cons x xs ++ ys = .cons x (xs ++ ys) := rfl

/-- Recursion principle over the list structure of `EList` alone. -/
theorem EList.consInduction {motive : EList → Prop} (hnil : motive .nil)
    (hcons : ∀ (e : Entry) (rest : EList), motive rest → motive (.cons e rest))
    (l : EList) : motive l := by
  have key : ∀ (n : Nat) (l : EList), lsize l ≤ n → motive l := by
    intro n
    induction n with
    | zero =>
      intro l hl
      cases l with
      | nil => exact hnil
      | cons e rest => simp only [lsize_cons] at hl; omega
    | succ n ih =>
      intro l hl
      cases l with
      | nil => exact hnil
      | cons e rest =>
        refine hcons e rest (ih rest ?_)
        simp only [lsize_cons] at hl; omega
  exact key (lsize l) l le_rfl

theorem mem_insertOnce_of_mem {y : Str} (x : Str) {acc : List Str}
    (h : y ∈ acc) : y ∈ insertOnce x acc := by
  unfold insertOnce
  split
  · exact h
  · exact List.mem_append_left _ h

theorem mem_insertOnce {y x : Str} {acc : List Str}
    (h : y ∈ insertOnce x acc) : y = x ∨ y ∈ acc := by
  unfold insertOnce at h
  split at h
  · exact Or.inr h
  · rcases List.mem_append.1 h with h1 | h1
    · exact Or.inr h1
    · exact Or.inl (List.mem_singleton.1 h1)

/-- The universal walk only grows the accumulator, and every element it
adds is a recognized extension of the universal variant. -/
theorem walk_univF_acc_mono :
    ∀ (fuel depth : Nat) (es : EList) (acc : List Str) (res : EList × List Str),
      walk_univF fuel depth es acc = some res →
      (∀ x ∈ acc, x ∈ res.2) ∧
      (∀ x ∈ res.2, x ∈ acc ∨ x ∈ special_extensions_univ ∨ x ∈ supported_formats_safe) := by
  intro fuel
  induction fuel with
  | zero =>
    intro depth es acc res h
    simp only [walk_univF] at h
    exact Option.noConfusion h
  | succ fuel ih =>
    intro depth es acc res h
    cases es with
    | nil =>
      simp only [walk_univF] at h
      injection h with h
      subst h
      exact ⟨fun x hx => hx, fun x hx => Or.inl hx⟩
    | cons e rest =>
      cases e with
      | dir name inner =>
        simp only [walk_univF] at h
        by_cases hmac : name = "__MACOSX".toList
        · rw [if_pos hmac] at h
          cases hchild : walk_univF fuel depth rest acc with
          | none => simp only [hchild] at h; exact Option.noConfusion h
          | some val =>
            obtain ⟨rest2, acc2⟩ := val
            simp only [hchild] at h
            injection h with h
            subst h
            obtain ⟨hsub, hcls⟩ := ih depth rest acc (rest2, acc2) hchild
            exact ⟨hsub, hcls⟩
        · rw [if_neg hmac] at h
          cases hinner : walk_univF fuel depth inner acc with
          | none => simp only [hinner] at h; exact Option.noConfusion h
          | some vi =>
            obtain ⟨inner2, acc2⟩ := vi
            simp only [hinner] at h
            cases hrest : walk_univF fuel depth rest acc2 with
            | none => simp only [hrest] at h; exact Option.noConfusion h
            | some vr =>
              obtain ⟨rest2, acc3⟩ := vr
              simp only [hrest] at h
              injection h with h
              subst h
              obtain ⟨hs1, hc1⟩ := ih depth inner acc (inner2, acc2) hinner
              obtain ⟨hs2, hc2⟩ := ih depth rest acc2 (rest2, acc3) hrest
              refine ⟨fun x hx => hs2 x (hs1 x hx), fun x hx => ?_⟩
              rcases hc2 x hx with h1 | h1
              · exact hc1 x h1
              · exact Or.inr h1
      | file name data =>
        simp only [walk_univF] at h
        by_cases hskip : "._".toList <+: name
        · rw [if_pos hskip] at h
          cases hchild : walk_univF fuel depth rest acc with
          | none => simp only [hchild] at h; exact Option.noConfusion h
          | some val =>
            obtain ⟨rest2, acc2⟩ := val
            simp only [hchild] at h
            injection h with h
            subst h
            exact ih depth rest acc (rest2, acc2) hchild
        · rw [if_neg hskip] at h
          by_cases hrec : lowerStr (splitextExt name) ∈ special_extensions_univ ∨
              lowerStr (splitextExt name) ∈ supported_formats_safe
          · rw [if_pos hrec] at h
            cases data with
            | adata m =>
              simp only [] at h
              by_cases hguard : MAX_DEPTH ≤ depth + 1
              · rw [if_pos hguard] at h
                cases hchild : walk_univF fuel depth rest
                    (insertOnce (lowerStr (splitextExt name)) acc) with
                | none => simp only [hchild] at h; exact Option.noConfusion h
                | some val =>
                  obtain ⟨rest2, acc3⟩ := val
                  simp only [hchild] at h
                  injection h with h
                  subst h
                  obtain ⟨hsub, hcls⟩ := ih depth rest _ (rest2, acc3) hchild
                  refine ⟨fun x hx => hsub x (mem_insertOnce_of_mem _ hx),
                    fun x hx => ?_⟩
                  rcases hcls x hx with h1 | h1
                  · rcases mem_insertOnce h1 with h2 | h2
                    · subst h2
                      exact Or.inr hrec
                    · exact Or.inl h2
                  · exact Or.inr h1
              · rw [if_neg hguard] at h
                cases hm : walk_univF fuel (depth + 1) m
                    (insertOnce (lowerStr (splitextExt name)) acc) with
                | none => simp only [hm] at h; exact Option.noConfusion h
                | some vm =>
                  obtain ⟨m2, acc3⟩ := vm
                  simp only [hm] at h
                  cases hrest : walk_univF fuel depth rest acc3 with
                  | none => simp only [hrest] at h; exact Option.noConfusion h
                  | some vr =>
                    obtain ⟨rest2, acc4⟩ := vr
                    simp only [hrest] at h
                    injection h with h
                    subst h
                    obtain ⟨hs1, hc1⟩ := ih (depth + 1) m _ (m2, acc3) hm
                    obtain ⟨hs2, hc2⟩ := ih depth rest acc3 (rest2, acc4) hrest
                    refine ⟨fun x hx =>
                      hs2 x (hs1 x (mem_insertOnce_of_mem _ hx)), fun x hx => ?_⟩
                    rcases hc2 x hx with h1 | h1
                    · rcases hc1 x h1 with h2 | h2
                      · rcases mem_insertOnce h2 with h3 | h3
                        · subst h3
                          exact Or.inr hrec
                        · exact Or.inl h3
                      · exact Or.inr h2
                    · exact Or.inr h1
            | plain =>
              simp only [] at h
              cases hchild : walk_univF fuel depth rest acc with
              | none => simp only [hchild] at h; exact Option.noConfusion h
              | some val =>
                obtain ⟨rest2, acc2⟩ := val
                simp only [hchild] at h
                injection h with h
                subst h
                exact ih depth rest acc (rest2, acc2) hchild
            | gzdata d =>
              simp only [] at h
              cases hchild : walk_univF fuel depth rest acc with
              | none => simp only [hchild] at h; exact Option.noConfusion h
              | some val =>
                obtain ⟨rest2, acc2⟩ := val
                simp only [hchild] at h
                injection h with h
                subst h
                exact ih depth rest acc (rest2, acc2) hchild
          · rw [if_neg hrec] at h
            cases hchild : walk_univF fuel depth rest acc with
            | none => simp only [hchild] at h; exact Option.noConfusion h
            | some val =>
              obtain ⟨rest2, acc2⟩ := val
              simp only [hchild] at h
              injection h with h
              subst h
              exact ih depth rest acc (rest2, acc2) hchild

/-- The 0.3.0 walk only grows the accumulator, and every element it adds
is drawn from the supported table, the special set, or is `.gz`. -/
theorem walk_paxoF_acc_mono :
    ∀ (fuel depth : Nat) (path : List Str) (es : EList) (acc : List Str)
      (tr : List RecCall) (res : EList × List Str × List RecCall),
      walk_paxoF fuel depth path es acc tr = some res →
      (∀ x ∈ acc, x ∈ res.2.1) ∧
      (∀ x ∈ res.2.1, x ∈ acc ∨ x ∈ supported_formats ∨ x ∈ special_extensions ∨
        x = ".gz".toList) := by
  intro fuel
  induction fuel with
  | zero =>
    intro depth path es acc tr res h
    simp only [walk_paxoF] at h
    exact Option.noConfusion h
  | succ fuel ih =>
    intro depth path es acc tr res h
    cases es with
    | nil =>
      simp only [walk_paxoF] at h
      injection h with h
      subst h
      exact ⟨fun x hx => hx, fun x hx => Or.inl hx⟩
    | cons e rest =>
      cases e with
      | dir name inner =>
        simp only [walk_paxoF] at h
        by_cases hmac : name = "__MACOSX".toList
        · rw [if_pos hmac] at h
          cases hchild : walk_paxoF fuel depth path rest acc tr with
          | none => simp only [hchild] at h; exact Option.noConfusion h
          | some val =>
            obtain ⟨rest2, acc2, tr2⟩ := val
            simp only [hchild] at h
            injection h with h
            subst h
            exact ih depth path rest acc tr (rest2, acc2, tr2) hchild
        · rw [if_neg hmac] at h
          cases hinner : walk_paxoF fuel depth (path ++ [name]) inner acc tr with
          | none => simp only [hinner] at h; exact Option.noConfusion h
          | some vi =>
            obtain ⟨inner2, acc2, tr2⟩ := vi
            simp only [hinner] at h
            cases hrest : walk_paxoF fuel depth path rest acc2 tr2 with
            | none => simp only [hrest] at h; exact Option.noConfusion h
            | some vr =>
              obtain ⟨rest2, acc3, tr3⟩ := vr
              simp only [hrest] at h
              injection h with h
              subst h
              obtain ⟨hs1, hc1⟩ := ih depth (path ++ [name]) inner acc tr
                (inner2, acc2, tr2) hinner
              obtain ⟨hs2, hc2⟩ := ih depth path rest acc2 tr2
                (rest2, acc3, tr3) hrest
              refine ⟨fun x hx => hs2 x (hs1 x hx), fun x hx => ?_⟩
              rcases hc2 x hx with h1 | h1
              · exact hc1 x h1
              · exact Or.inr h1
      | file name data =>
        by_cases hskip : "._".toList <+: name
        · simp only [walk_paxoF] at h
          rw [if_pos hskip] at h
          cases hchild : walk_paxoF fuel depth path rest acc tr with
          | none => simp only [hchild] at h; exact Option.noConfusion h
          | some val =>
            obtain ⟨rest2, acc2, tr2⟩ := val
            simp only [hchild] at h
            injection h with h
            subst h
            exact ih depth path rest acc tr (rest2, acc2, tr2) hchild
        · by_cases hgz : get_extension name = ".gz".toList
          · cases data with
            | gzdata inner =>
              simp only [walk_paxoF] at h
              rw [if_neg hskip, if_pos hgz] at h
              by_cases hguard : MAX_DEPTH ≤ depth + 1
              · rw [if_pos hguard] at h
                cases hchild : walk_paxoF fuel depth path rest
                    (insertOnce ".gz".toList acc)
                    (tr ++ [⟨path, path, depth + 1⟩]) with
                | none => simp only [hchild] at h; exact Option.noConfusion h
                | some val =>
                  obtain ⟨rest2, acc3, tr3⟩ := val
                  simp only [hchild] at h
                  injection h with h
                  subst h
                  obtain ⟨hsub, hcls⟩ := ih depth path rest _ _
                    (rest2, acc3, tr3) hchild
                  refine ⟨fun x hx => hsub x (mem_insertOnce_of_mem _ hx),
                    fun x hx => ?_⟩
                  rcases hcls x hx with h1 | h1
                  · rcases mem_insertOnce h1 with h2 | h2
                    · exact Or.inr (Or.inr (Or.inr h2))
                    · exact Or.inl h2
                  · exact Or.inr h1
              · rw [if_neg hguard] at h
                obtain ⟨hsub, hcls⟩ := ih (depth + 1) path
                  (.cons (.file (splitextRoot name) inner) rest)
                  (insertOnce ".gz".toList acc)
                  (tr ++ [⟨path, path, depth + 1⟩]) res h
                refine ⟨fun x hx => hsub x (mem_insertOnce_of_mem _ hx),
                  fun x hx => ?_⟩
                rcases hcls x hx with h1 | h1
                · rcases mem_insertOnce h1 with h2 | h2
                  · exact Or.inr (Or.inr (Or.inr h2))
                  · exact Or.inl h2
                · exact Or.inr h1
            | plain =>
              simp only [walk_paxoF] at h
              rw [if_neg hskip, if_pos hgz] at h
              cases hchild : walk_paxoF fuel depth path rest acc tr with
              | none => simp only [hchild] at h; exact Option.noConfusion h
              | some val =>
                obtain ⟨rest2, acc2, tr2⟩ := val
                simp only [hchild] at h
                injection h with h
                subst h
                exact ih depth path rest acc tr (rest2, acc2, tr2) hchild
            | adata m =>
              simp only [walk_paxoF] at h
              rw [if_neg hskip, if_pos hgz] at h
              cases hchild : walk_paxoF fuel depth path rest acc tr with
              | none => simp only [hchild] at h; exact Option.noConfusion h
              | some val =>
                obtain ⟨rest2, acc2, tr2⟩ := val
                simp only [hchild] at h
                injection h with h
                subst h
                exact ih depth path rest acc tr (rest2, acc2, tr2) hchild
          · by_cases h7z : get_extension name = ".7z".toList
            · have h7zmem : get_extension name ∈ supported_formats := by
                rw [h7z]; decide
              cases data with
              | adata m =>
                simp only [walk_paxoF] at h
                rw [if_neg hskip, if_neg hgz, if_pos h7z] at h
                by_cases hguard : MAX_DEPTH ≤ depth + 1
                · rw [if_pos hguard] at h
                  cases hchild : walk_paxoF fuel depth path rest
                      (insertOnce (get_extension name) acc)
                      (tr ++ [⟨path, path ++ [name.take (name.length -
                        (get_extension name).length)], depth + 1⟩]) with
                  | none => simp only [hchild] at h; exact Option.noConfusion h
                  | some val =>
                    obtain ⟨rest2, acc3, tr3⟩ := val
                    simp only [hchild] at h
                    injection h with h
                    subst h
                    obtain ⟨hsub, hcls⟩ := ih depth path rest _ _
                      (rest2, acc3, tr3) hchild
                    refine ⟨fun x hx => hsub x (mem_insertOnce_of_mem _ hx),
                      fun x hx => ?_⟩
                    rcases hcls x hx with h1 | h1
                    · rcases mem_insertOnce h1 with h2 | h2
                      · subst h2
                        exact Or.inr (Or.inl h7zmem)
                      · exact Or.inl h2
                    · exact Or.inr h1
                · rw [if_neg hguard] at h
                  cases hm : walk_paxoF fuel (depth + 1)
                      (path ++ [name.take (name.length - (get_extension name).length)]) m
                      (insertOnce (get_extension name) acc)
                      (tr ++ [⟨path, path ++ [name.take (name.length -
                        (get_extension name).length)], depth + 1⟩]) with
                  | none => simp only [hm] at h; exact Option.noConfusion h
                  | some vm =>
                    obtain ⟨m2, acc3, tr3⟩ := vm
                    simp only [hm] at h
                    cases hrest : walk_paxoF fuel depth path rest acc3 tr3 with
                    | none => simp only [hrest] at h; exact Option.noConfusion h
                    | some vr =>
                      obtain ⟨rest2, acc4, tr4⟩ := vr
                      simp only [hrest] at h
                      injection h with h
                      subst h
                      obtain ⟨hs1, hc1⟩ := ih (depth + 1) _ m _ _ (m2, acc3, tr3) hm
                      obtain ⟨hs2, hc2⟩ := ih depth path rest acc3 tr3
                        (rest2, acc4, tr4) hrest
                      refine ⟨fun x hx =>
                        hs2 x (hs1 x (mem_insertOnce_of_mem _ hx)), fun x hx => ?_⟩
                      rcases hc2 x hx with h1 | h1
                      · rcases hc1 x h1 with h2 | h2
                        · rcases mem_insertOnce h2 with h3 | h3
                          · subst h3
                            exact Or.inr (Or.inl h7zmem)
                          · exact Or.inl h3
                        · exact Or.inr h2
                      · exact Or.inr h1
              | plain =>
                simp only [walk_paxoF] at h
                rw [if_neg hskip, if_neg hgz, if_pos h7z] at h
                cases hchild : walk_paxoF fuel depth path rest
                    (insertOnce (get_extension name) acc)
                    (tr ++ [⟨path, path ++ [name.take (name.length -
                      (get_extension name).length)], depth + 1⟩]) with
                | none => simp only [hchild] at h; exact Option.noConfusion h
                | some val =>
                  obtain ⟨rest2, acc3, tr3⟩ := val
                  simp only [hchild] at h
                  injection h with h
                  subst h
                  obtain ⟨hsub, hcls⟩ := ih depth path rest _ _
                    (rest2, acc3, tr3) hchild
                  refine ⟨fun x hx => hsub x (mem_insertOnce_of_mem _ hx),
                    fun x hx => ?_⟩
                  rcases hcls x hx with h1 | h1
                  · rcases mem_insertOnce h1 with h2 | h2
                    · subst h2
                      exact Or.inr (Or.inl h7zmem)
                    · exact Or.inl h2
                  · exact Or.inr h1
              | gzdata d =>
                simp only [walk_paxoF] at h
                rw [if_neg hskip, if_neg hgz, if_pos h7z] at h
                cases hchild : walk_paxoF fuel depth path rest
                    (insertOnce (get_extension name) acc)
                    (tr ++ [⟨path, path ++ [name.take (name.length -
                      (get_extension name).length)], depth + 1⟩]) with
                | none => simp only [hchild] at h; exact Option.noConfusion h
                | some val =>
                  obtain ⟨rest2, acc3, tr3⟩ := val
                  simp only [hchild] at h
                  injection h with h
                  subst h
                  obtain ⟨hsub, hcls⟩ := ih depth path rest _ _
                    (rest2, acc3, tr3) hchild
                  refine ⟨fun x hx => hsub x (mem_insertOnce_of_mem _ hx),
                    fun x hx => ?_⟩
                  rcases hcls x hx with h1 | h1
                  · rcases mem_insertOnce h1 with h2 | h2
                    · subst h2
                      exact Or.inr (Or.inl h7zmem)
                    · exact Or.inl h2
                  · exact Or.inr h1
            · by_cases hrec : get_extension name ∈ special_extensions ∨
                  get_extension name ∈ supported_formats
              · have hrecmem : get_extension name ∈ supported_formats ∨
                    get_extension name ∈ special_extensions := hrec.symm
                cases data with
                | adata m =>
                  simp only [walk_paxoF] at h
                  rw [if_neg hskip, if_neg hgz, if_neg h7z, if_pos hrec] at h
                  by_cases hguard : MAX_DEPTH ≤ depth + 1
                  · rw [if_pos hguard] at h
                    cases hchild : walk_paxoF fuel depth path rest
                        (insertOnce (get_extension name) acc)
                        (tr ++ [⟨path, path ++ [name.take (name.length -
                          (get_extension name).length)], depth + 1⟩]) with
                    | none => simp only [hchild] at h; exact Option.noConfusion h
                    | some val =>
                      obtain ⟨rest2, acc3, tr3⟩ := val
                      simp only [hchild] at h
                      injection h with h
                      subst h
                      obtain ⟨hsub, hcls⟩ := ih depth path rest _ _
                        (rest2, acc3, tr3) hchild
                      refine ⟨fun x hx => hsub x (mem_insertOnce_of_mem _ hx),
                        fun x hx => ?_⟩
                      rcases hcls x hx with h1 | h1
                      · rcases mem_insertOnce h1 with h2 | h2
                        · subst h2
                          rcases hrecmem with h3 | h3
                          · exact Or.inr (Or.inl h3)
                          · exact Or.inr (Or.inr (Or.inl h3))
                        · exact Or.inl h2
                      · exact Or.inr h1
                  · rw [if_neg hguard] at h
                    cases hm : walk_paxoF fuel (depth + 1)
                        (path ++ [name.take (name.length - (get_extension name).length)]) m
                        (insertOnce (get_extension name) acc)
                        (tr ++ [⟨path, path ++ [name.take (name.length -
                          (get_extension name).length)], depth + 1⟩]) with
                    | none => simp only [hm] at h; exact Option.noConfusion h
                    | some vm =>
                      obtain ⟨m2, acc3, tr3⟩ := vm
                      simp only [hm] at h
                      cases hrest : walk_paxoF fuel depth path rest acc3 tr3 with
                      | none => simp only [hrest] at h; exact Option.noConfusion h
                      | some vr =>
                        obtain ⟨rest2, acc4, tr4⟩ := vr
                        simp only [hrest] at h
                        injection h with h
                        subst h
                        obtain ⟨hs1, hc1⟩ := ih (depth + 1) _ m _ _ (m2, acc3, tr3) hm
                        obtain ⟨hs2, hc2⟩ := ih depth path rest acc3 tr3
                          (rest2, acc4, tr4) hrest
                        refine ⟨fun x hx =>
                          hs2 x (hs1 x (mem_insertOnce_of_mem _ hx)), fun x hx => ?_⟩
                        rcases hc2 x hx with h1 | h1
                        · rcases hc1 x h1 with h2 | h2
                          · rcases mem_insertOnce h2 with h3 | h3
                            · subst h3
                              rcases hrecmem with h4 | h4
                              · exact Or.inr (Or.inl h4)
                              · exact Or.inr (Or.inr (Or.inl h4))
                            · exact Or.inl h3
                          · exact Or.inr h2
                        · exact Or.inr h1
                | plain =>
                  simp only [walk_paxoF] at h
                  rw [if_neg hskip, if_neg hgz, if_neg h7z, if_pos hrec] at h
                  cases hchild : walk_paxoF fuel depth path rest acc tr with
                  | none => simp only [hchild] at h; exact Option.noConfusion h
                  | some val =>
                    obtain ⟨rest2, acc2, tr2⟩ := val
                    simp only [hchild] at h
                    injection h with h
                    subst h
                    exact ih depth path rest acc tr (rest2, acc2, tr2) hchild
                | gzdata d =>
                  simp only [walk_paxoF] at h
                  rw [if_neg hskip, if_neg hgz, if_neg h7z, if_pos hrec] at h
                  cases hchild : walk_paxoF fuel depth path rest acc tr with
                  | none => simp only [hchild] at h; exact Option.noConfusion h
                  | some val =>
                    obtain ⟨rest2, acc2, tr2⟩ := val
                    simp only [hchild] at h
                    injection h with h
                    subst h
                    exact ih depth path rest acc tr (rest2, acc2, tr2) hchild
              · simp only [walk_paxoF] at h
                rw [if_neg hskip, if_neg hgz, if_neg h7z, if_neg hrec] at h
                cases hchild : walk_paxoF fuel depth path rest acc tr with
                | none => simp only [hchild] at h; exact Option.noConfusion h
                | some val =>
                  obtain ⟨rest2, acc2, tr2⟩ := val
                  simp only [hchild] at h
                  injection h with h
                  subst h
                  exact ih depth path rest acc tr (rest2, acc2, tr2) hchild

/-- The universal walk distributes over a split of the directory listing,
threading the accumulator left to right. -/
theorem walk_univ_append (depth : Nat) (P S : EList) (acc : List Str) :
    walk_univ depth (P ++ S) acc =
      ((walk_univ depth P acc).1 ++
        (walk_univ depth S (walk_univ depth P acc).2).1,
       (walk_univ depth S (walk_univ depth P acc).2).2) := by
  induction P using EList.consInduction generalizing acc with
  | hnil => simp [walk_univ_nil]
  | hcons e rest ih => simp only [EList.cons_append, walk_univ_cons, ih]

/-- The concrete candidate list of 0.3.0 `_get_extension`, computed. -/
theorem extCandidates_eq : extCandidates =
    [".tar.bz2".toList, ".tar.gz".toList, ".tar.xz".toList, ".tbz2".toList,
     ".zip".toList, ".tar".toList, ".tgz".toList, ".txz".toList, ".jar".toList,
     ".war".toList, ".exe".toList, ".dll".toList, ".apk".toList, ".ipa".toList,
     ".7z".toList, ".so".toList] := by decide

/-- The concrete candidate list of the Safe Edition `_get_extension`,
computed: `'.gz'` sorts last. -/
theorem extCandidatesSafe_eq : extCandidatesSafe =
    [".tar.bz2".toList, ".tar.gz".toList, ".tar.xz".toList, ".tbz2".toList,
     ".zip".toList, ".tar".toList, ".tgz".toList, ".txz".toList, ".jar".toList,
     ".war".toList, ".exe".toList, ".dll".toList, ".apk".toList, ".ipa".toList,
     ".so".toList, ".gz".toList] := by decide

/-- C2: every filename that ends (case-insensitively) in `.tar.gz` or `.tgz`
is resolved by both `_get_extension` variants to the tar-gzip tag
(`.tar.gz` resp. `.tgz`), never to the bare-gzip tag `.gz`: the bare `.gz`
suffix is tested only after every longer known suffix has failed to match. -/
theorem c2_tar_gz_resolves_to_tar_gzip (p : Str) :
    ((".tar.gz".toList <:+ lowerStr p) →
      get_extension p = ".tar.gz".toList ∧ get_extension_safe p = ".tar.gz".toList) ∧
    ((".tgz".toList <:+ lowerStr p) →
      get_extension p = ".tgz".toList ∧ get_extension_safe p = ".tgz".toList) := by
  constructor
  · intro h
    have n1 : ¬ (".tar.bz2".toList <:+ lowerStr p) :=
      not_suffix_of_incomparable h (by decide) (by decide)
    refine ⟨?_, ?_⟩
    · unfold get_extension
      rw [extCandidates_eq, List.find?_cons_of_neg _ (by simpa using n1),
          List.find?_cons_of_pos _ (by simpa using h)]
    · unfold get_extension_safe
      rw [extCandidatesSafe_eq, List.find?_cons_of_neg _ (by simpa using n1),
          List.find?_cons_of_pos _ (by simpa using h)]
  · intro h
    have n1 : ¬ (".tar.bz2".toList <:+ lowerStr p) :=
      not_suffix_of_incomparable h (by decide) (by decide)
    have n2 : ¬ (".tar.gz".toList <:+ lowerStr p) :=
      not_suffix_of_incomparable h (by decide) (by decide)
    have n3 : ¬ (".tar.xz".toList <:+ lowerStr p) :=
      not_suffix_of_incomparable h (by decide) (by decide)
    have n4 : ¬ (".tbz2".toList <:+ lowerStr p) :=
      not_suffix_of_incomparable h (by decide) (by decide)
    have n5 : ¬ (".zip".toList <:+ lowerStr p) :=
      not_suffix_of_incomparable h (by decide) (by decide)
    have n6 : ¬ (".tar".toList <:+ lowerStr p) :=
      not_suffix_of_incomparable h (by decide) (by decide)
    refine ⟨?_, ?_⟩
    · unfold get_extension
      rw [extCandidates_eq, List.find?_cons_of_neg _ (by simpa using n1),
          List.find?_cons_of_neg _ (by simpa using n2),
          List.find?_cons_of_neg _ (by simpa using n3),
          List.find?_cons_of_neg _ (by simpa using n4),
          List.find?_cons_of_neg _ (by simpa using n5),
          List.find?_cons_of_neg _ (by simpa using n6),
          List.find?_cons_of_pos _ (by simpa using h)]
    · unfold get_extension_safe
      rw [extCandidatesSafe_eq, List.find?_cons_of_neg _ (by simpa using n1),
          List.find?_cons_of_neg _ (by simpa using n2),
          List.find?_cons_of_neg _ (by simpa using n3),
          List.find?_cons_of_neg _ (by simpa using n4),
          List.find?_cons_of_neg _ (by simpa using n5),
          List.find?_cons_of_neg _ (by simpa using n6),
          List.find?_cons_of_pos _ (by simpa using h)]

/-- Witness for C2 at concrete inputs. -/
theorem c2_tar_gz_resolves_to_tar_gzip_witness :
    ((".tar.gz".toList <:+ lowerStr "Sample.TAR.GZ".toList) ∧
      get_extension "Sample.TAR.GZ".toList = ".tar.gz".toList) ∧
    ((".tgz".toList <:+ lowerStr "pkg.TgZ".toList) ∧
      get_extension_safe "pkg.TgZ".toList = ".tgz".toList) :=
  ⟨⟨by decide, ((c2_tar_gz_resolves_to_tar_gzip "Sample.TAR.GZ".toList).1
      (by decide)).1⟩,
   ⟨by decide, ((c2_tar_gz_resolves_to_tar_gzip "pkg.TgZ".toList).2
      (by decide)).2⟩⟩

/-- The concrete target directory `/tmp/target_dir` used to exercise the
member check of `safe_extract_zip` / `safe_extract_tar`. -/
def targetDemo : List Str := ["tmp".toList, "target_dir".toList]

/-- C1: the member check of `safe_extract_zip` / `safe_extract_tar` is a
naive string `startswith` on the rendered paths, not a path-separator-aware
comparison.  A member `../target_dirEVIL/pwn` of an archive extracted into
`/tmp/target_dir` resolves to `/tmp/target_dirEVIL/pwn`, which passes the
check (the rendered string starts with `/tmp/target_dir`) and is written —
a file outside the target directory (the target's components are not a
prefix of the written path's components).  A member whose resolved path
lacks even the string prefix, such as `../../etc/passwd`, is correctly
rejected with a `SecurityError` naming the member, and nothing is written
for it. -/
theorem c1_prefix_check_is_naive_string_prefix :
    (safe_extract_zip targetDemo ["../target_dirEVIL/pwn".toList] =
      ([["tmp".toList, "target_dirEVIL".toList, "pwn".toList]], none)) ∧
    ¬ (targetDemo <+: ["tmp".toList, "target_dirEVIL".toList, "pwn".toList]) ∧
    (safe_extract_tar targetDemo ["../target_dirEVIL/pwn".toList] =
      ([["tmp".toList, "target_dirEVIL".toList, "pwn".toList]], none)) ∧
    (safe_extract_zip targetDemo ["../../etc/passwd".toList] =
      ([], some "Unsafe path in ZIP: ../../etc/passwd".toList)) ∧
    (safe_extract_tar targetDemo ["../../etc/passwd".toList] =
      ([], some "Unsafe path in TAR: ../../etc/passwd".toList)) := by
  refine ⟨by decide, by decide, by decide, by decide, by decide⟩

/-- C3: extracting a top-level archive `a.zip` whose content is nested six
levels deep (one more than `MAX_DEPTH = 5`) and recursively unpacking
extracts the first five levels fully, leaves the sixth-level archive file
`f.tar` un-extracted on disk, and its tag `.tar` absent from the unpacked
accumulator (which holds only `.zip`); and `_recursive_unpack` called with
`depth >= MAX_DEPTH` returns immediately, changing nothing. -/
theorem c3_depth_bound_six_levels :
    (paxo_extract_and_list "a.zip".toList (.adata chain6) =
      (.ok (chain6Result, [".zip".toList], chain6Trace), true)) ∧
    (".tar".toList ∉ [".zip".toList]) ∧
    (∀ (depth : Nat) (path : List Str) (es : EList) (acc : List Str)
      (tr : List RecCall), MAX_DEPTH ≤ depth →
      recursive_unpack_paxo depth path es acc tr = (es, acc, tr)) := by
  refine ⟨by set_option maxRecDepth 20000 in exact rfl, by decide,
    fun depth path es acc tr h => ?_⟩
  unfold recursive_unpack_paxo recursive_unpack_paxoF
  rw [if_pos h]
  rfl

/-- Witness for C3's depth-guard component at a concrete call. -/
theorem c3_depth_bound_six_levels_witness :
    MAX_DEPTH ≤ 5 ∧
    recursive_unpack_paxo 5 [] chain6 [] [] = (chain6, [], []) :=
  ⟨by decide, c3_depth_bound_six_levels.2.2 5 [] chain6 [] [] (by decide)⟩

/-- C4: for an input `data.rar` — whose resolved tag is not in the
supported table, not special, and not `.gz` — the universal variant's
`_extract_and_list` raises no `UnsupportedFormat` error at all and still
deletes the source file (there is no else-branch before
`os.remove(self.path)`), extracting nothing; the PaxoInsight variant
raises the unsupported-format `ValueError`, and its source file survives
because the removal is only reached on the success path. -/
theorem c4_unknown_format_universal_deletes_source :
    (univ_extract_and_list "data.rar".toList .plain = (.ok (.nil, []), true)) ∧
    (paxo_extract_and_list "data.rar".toList .plain =
      (.error (.unsupported ".rar".toList), false)) :=
  ⟨rfl, rfl⟩

/-- C7: for the source filename `my file.gz`, whose stripped output name
`my file` contains a space and therefore fails the safe-filename
validation, the 0.3.0 `.gz` branch performs no validation at all — it
succeeds and writes the output file `my file` — while the Safe Edition
branch fails with the invalid-output-name `ValueError` naming the stripped
name, before anything is written. -/
theorem c7_gz_output_name_validation :
    (paxo_extract_and_list "my file.gz".toList (.gzdata .plain) =
      (.ok (.cons (.file "my file".toList .plain) .nil, [], []), true)) ∧
    (safe_gz_branch ["tmp".toList, "out".toList] "my file.gz".toList
      (.gzdata .plain) = .error (.invalidName "my file".toList)) :=
  ⟨rfl, rfl⟩

/-- C5 counterexample: in the 0.3.0 `.gz` branch the recursive call passes
`root` — the directory currently being walked — as the new walk root, so
that recursion call's target equals its parent instead of being a newly
created directory distinct from it: unpacking a directory containing only
`x.gz` produces exactly one recursion call, with `target = parent`. -/
theorem c5_gz_recursion_targets_walked_directory :
    (recursive_unpack_paxo 0 [] (.cons (.file "x.gz".toList (.gzdata .plain)) .nil) [] [] =
      (.cons (.file "x".toList .plain) .nil, [".gz".toList], [⟨[], [], 1⟩])) ∧
    (RecCall.mk [] [] 1).target = (RecCall.mk [] [] 1).parent :=
  ⟨rfl, rfl⟩

/-- C6: a corrupt nested archive is tolerated per-file and the walk
continues with its siblings.  First conjunct (universal variant): for any
directory listing `P ++ [corrupt] ++ S` where the corrupt entry has a
recognized extension but unreadable data, the walk result is exactly the
walk of `P` followed by the untouched corrupt file followed by the walk of
`S` (accumulator threaded through `P` then `S`), i.e. all siblings are
still processed and no error is propagated — the walk is total.  Second
conjunct (PaxoInsight 0.3.0): the per-file handler for a corrupt archive
with a recognized non-gzip, non-7z extension leaves that file in place and
continues the walk with the remaining entries. -/
theorem c6_corrupt_nested_archive_skipped :
    (∀ (depth : Nat) (P S : EList) (name : Str) (data : FData) (acc : List Str),
      ¬ ("._".toList <+: name) →
      (lowerStr (splitextExt name) ∈ special_extensions_univ ∨
        lowerStr (splitextExt name) ∈ supported_formats_safe) →
      (∀ m, data ≠ .adata m) →
      walk_univ depth (P ++ .cons (.file name data) S) acc =
        ((walk_univ depth P acc).1 ++
          .cons (.file name data)
            (walk_univ depth S (walk_univ depth P acc).2).1,
         (walk_univ depth S (walk_univ depth P acc).2).2)) ∧
    (∀ (fuel depth : Nat) (path : List Str) (name : Str) (data : FData)
      (rest : EList) (acc : List Str) (tr : List RecCall),
      ¬ ("._".toList <+: name) →
      (get_extension name ∈ special_extensions ∨
        get_extension name ∈ supported_formats) →
      get_extension name ≠ ".gz".toList →
      get_extension name ≠ ".7z".toList →
      (∀ m, data ≠ .adata m) →
      walk_paxoF (fuel + 1) depth path (.cons (.file name data) rest) acc tr =
        match walk_paxoF fuel depth path rest acc tr with
        | none => none
        | some (rest2, acc2, tr2) =>
          some (.cons (.file name data) rest2, acc2, tr2)) := by
  constructor
  · intro depth P S name data acc hskip hrec hbad
    rw [walk_univ_append, walk_univ_cons]
    have hstep : univ_step depth (.file name data) (walk_univ depth P acc).2 =
        (.file name data, (walk_univ depth P acc).2) := by
      simp only [univ_step]
      rw [if_neg hskip, if_pos hrec]
    rw [hstep]
  · intro fuel depth path name data rest acc tr hskip hrec hgz h7z hbad
    simp only [walk_paxoF]
    rw [if_neg hskip, if_neg hgz, if_neg h7z, if_pos hrec]

/-- Witness for C6: a directory with one good archive before and one after
a corrupt `bad.zip`; both siblings are extracted, the corrupt file stays. -/
theorem c6_corrupt_nested_archive_skipped_witness :
    (walk_univ 0
      (.cons (.file "ok1.zip".toList (.adata (.cons (.file "a".toList .plain) .nil)))
        (.cons (.file "bad.zip".toList .plain)
          (.cons (.file "ok2.zip".toList (.adata (.cons (.file "b".toList .plain) .nil)))
            .nil))) [] =
      ((walk_univ 0
          (.cons (.file "ok1.zip".toList (.adata (.cons (.file "a".toList .plain) .nil)))
            .nil) []).1 ++
        .cons (.file "bad.zip".toList .plain)
          (walk_univ 0
            (.cons (.file "ok2.zip".toList (.adata (.cons (.file "b".toList .plain) .nil)))
              .nil)
            (walk_univ 0
              (.cons (.file "ok1.zip".toList (.adata (.cons (.file "a".toList .plain) .nil)))
                .nil) []).2).1,
       (walk_univ 0
          (.cons (.file "ok2.zip".toList (.adata (.cons (.file "b".toList .plain) .nil)))
            .nil)
          (walk_univ 0
            (.cons (.file "ok1.zip".toList (.adata (.cons (.file "a".toList .plain) .nil)))
              .nil) []).2).2)) ∧
    (walk_paxoF 1 0 [] (.cons (.file "bad.zip".toList .plain) .nil) [] [] =
      match walk_paxoF 0 0 [] EList.nil [] ([] : List RecCall) with
      | none => none
      | some (rest2, acc2, tr2) =>
        some (.cons (.file "bad.zip".toList .plain) rest2, acc2, tr2)) :=
  ⟨c6_corrupt_nested_archive_skipped.1 0
      (.cons (.file "ok1.zip".toList (.adata (.cons (.file "a".toList .plain) .nil))) .nil)
      (.cons (.file "ok2.zip".toList (.adata (.cons (.file "b".toList .plain) .nil))) .nil)
      "bad.zip".toList .plain [] (by decide) (by decide)
      (fun m h => FData.noConfusion h),
   c6_corrupt_nested_archive_skipped.2 0 0 [] "bad.zip".toList .plain .nil [] []
      (by decide) (by decide) (by decide) (by decide)
      (fun m h => FData.noConfusion h)⟩

/-- C10 counterexample: a corrupt `.7z` file: `_extract_7z` swallows the
py7zr failure, so `.7z` is recorded in the unpacked accumulator and the
corrupt file is deleted even though no extraction succeeded (the recursion
call into the never-created target directory is still made). -/
theorem c10_corrupt_7z_recorded_without_success :
    recursive_unpack_paxo 0 [] (.cons (.file "a.7z".toList .plain) .nil) [] [] =
      (.nil, [".7z".toList], [⟨[], ["a".toList], 1⟩]) :=
  rfl

/-- Accumulating writes in a left fold is the same as appending the block
of rendered lines. -/
theorem foldl_append_block (f : Str → Str) :
    ∀ (l : List Str) (r : Str),
      l.foldl (fun acc c => acc ++ f c) r = r ++ (l.map f).flatten := by
  intro l
  induction l with
  | nil => intro r; simp
  | cons x xs ih => intro r; simp [ih, List.append_assoc]

/-- Accumulating writes guarded by a skip condition is the same as
appending the block of rendered lines of the kept elements. -/
theorem foldl_append_skip (q : Str → Prop) [DecidablePred q] (f : Str → Str) :
    ∀ (l : List Str) (r : Str),
      l.foldl (fun acc e => if q e then acc else acc ++ f e) r =
        r ++ ((l.filter (fun e => decide (¬ q e))).map f).flatten := by
  intro l
  induction l with
  | nil => intro r; simp
  | cons x xs ih =>
    intro r
    by_cases hx : q x
    · simp only [List.foldl_cons, if_pos hx, List.filter_cons,
        decide_eq_false (not_not_intro hx)]
      simp [ih]
    · simp only [List.foldl_cons, if_neg hx, List.filter_cons,
        decide_eq_true hx]
      simp [ih, List.append_assoc]

/-- C9: the inventory scan is side-effect free and idempotent: the walk
returns the tree it was given unchanged, and scanning the (unchanged)
result of a scan yields the identical classification triple — same
observed-extension set, same class list and same special list in the same
order. -/
theorem c9_scan_idempotent_and_pure :
    (∀ (pre : Str) (es : EList) (r : List Str × List Str × List Str),
      (scan_walk pre es r).1 = es) ∧
    (∀ es : EList, (scan_disk ((scan_disk es).1)).2 = (scan_disk es).2) := by
  have key : ∀ (n : Nat) (es : EList), lsize es ≤ n →
      ∀ (pre : Str) (r : List Str × List Str × List Str),
      (scan_walk pre es r).1 = es := by
    intro n
    induction n using Nat.strong_induction_on with
    | _ n ih =>
      intro es hes pre r
      cases es with
      | nil => rfl
      | cons e rest =>
        cases e with
        | dir name inner =>
          simp only [lsize_cons, esize_dir] at hes
          by_cases hmac : name = "__MACOSX".toList
          · simp only [scan_walk, if_pos hmac]
            rw [ih (lsize rest) (by omega) rest le_rfl pre _]
          · simp only [scan_walk, if_neg hmac]
            rw [ih (lsize inner) (by omega) inner le_rfl _ _,
              ih (lsize rest) (by omega) rest le_rfl _ _]
        | file name data =>
          simp only [lsize_cons, esize_file] at hes
          by_cases hskip : "._".toList <+: name
          · simp only [scan_walk, if_pos hskip]
            rw [ih (lsize rest) (by omega) rest le_rfl _ _]
          · simp only [scan_walk, if_neg hskip]
            rw [ih (lsize rest) (by omega) rest le_rfl _ _]
  refine ⟨fun pre es r => key (lsize es) es le_rfl pre r, fun es => ?_⟩
  rw [show (scan_disk es).1 = es from key (lsize es) es le_rfl [] ([], [], [])]

/-- C8 counterexample: for a scanned directory containing one file
`a.tar.gz`, the report the code writes has no `* -> .tar.gz` line (the
wildcard filter is membership in `REPORT_EXTENSIONS`), while the
claimed format — wildcard lines for every observed format not covered by a
classified file — would list it: the two renderings differ. -/
theorem c8_wildcard_filter_counterexample :
    save_report
        (scan_disk (.cons (.file "a.tar.gz".toList (.adata .nil)) .nil)).2.1
        (scan_disk (.cons (.file "a.tar.gz".toList (.adata .nil)) .nil)).2.2.1
        (scan_disk (.cons (.file "a.tar.gz".toList (.adata .nil)) .nil)).2.2.2 ≠
      save_report_claimed
        (scan_disk (.cons (.file "a.tar.gz".toList (.adata .nil)) .nil)).2.1
        (scan_disk (.cons (.file "a.tar.gz".toList (.adata .nil)) .nil)).2.2.1
        (scan_disk (.cons (.file "a.tar.gz".toList (.adata .nil)) .nil)).2.2.2 := by
  decide

/-- C8 (amended): for every scanned directory, `save_report` writes
exactly: the header line (header text plus the comma-joined, sorted
report-worthy extension names), a blank line, one `<rel> -> <tag>` line
per classified file — class files first, then specials — and then one
`* -> <ext>` line, in sorted order, for each observed extension *not in
the report-worthy set* `REPORT_EXTENSIONS`. -/
theorem c8_report_format :
    (∀ es : EList,
      save_report (scan_disk es).2.1 (scan_disk es).2.2.1 (scan_disk es).2.2.2 =
        save_report_amended (scan_disk es).2.1 (scan_disk es).2.2.1
          (scan_disk es).2.2.2) ∧
    (∀ exts classes specials : List Str,
      save_report exts classes specials =
        save_report_amended exts classes specials) := by
  have key : ∀ exts classes specials : List Str,
      save_report exts classes specials =
        save_report_amended exts classes specials := by
    intro exts classes specials
    simp only [save_report, save_report_amended]
    rw [foldl_append_block, foldl_append_block,
      foldl_append_skip (fun e => e ∈ report_extensions)]
  exact ⟨fun es => key _ _ _, key⟩

/-- C5 (amended): `_recursive_unpack` terminates on every input: a call
budget of `lsize es + 1` (one unit per walk step) always suffices, every
sufficient budget returns the same defined result — the recursion cannot
run unboundedly, because each nested call strictly increases the depth and
the walk descends only into structurally smaller trees — and a call made
with `depth >= MAX_DEPTH` returns its arguments unchanged at once. -/
theorem c5_recursive_unpack_terminates :
    (∀ (fuel depth : Nat) (path : List Str) (es : EList) (acc : List Str)
      (tr : List RecCall), lsize es < fuel →
      recursive_unpack_paxoF fuel depth path es acc tr =
        some (recursive_unpack_paxo depth path es acc tr)) ∧
    (∀ (fuel depth : Nat) (path : List Str) (es : EList) (acc : List Str)
      (tr : List RecCall), MAX_DEPTH ≤ depth →
      recursive_unpack_paxoF fuel depth path es acc tr = some (es, acc, tr)) := by
  constructor
  · exact fun fuel depth path es acc tr hf =>
      recursive_unpack_paxoF_eq fuel depth path es acc tr hf
  · intro fuel depth path es acc tr hd
    unfold recursive_unpack_paxoF
    rw [if_pos hd]

/-- Witness for C5 at a concrete input and a concrete guard call. -/
theorem c5_recursive_unpack_terminates_witness :
    (lsize (EList.cons (.file "x.gz".toList (.gzdata .plain)) .nil) < 4 ∧
      recursive_unpack_paxoF 4 0 []
        (.cons (.file "x.gz".toList (.gzdata .plain)) .nil) [] [] =
        some (recursive_unpack_paxo 0 []
          (.cons (.file "x.gz".toList (.gzdata .plain)) .nil) [] [])) ∧
    (MAX_DEPTH ≤ 7 ∧
      recursive_unpack_paxoF 0 7 [] EList.nil [] [] = some (EList.nil, [], [])) :=
  ⟨⟨by decide, c5_recursive_unpack_terminates.1 4 0 []
      (.cons (.file "x.gz".toList (.gzdata .plain)) .nil) [] [] (by decide)⟩,
   ⟨by decide, c5_recursive_unpack_terminates.2 0 7 [] EList.nil [] [] (by decide)⟩⟩

/-- C10 (amended): the unpacked accumulator grows monotonically — no
element is ever removed — and every element added is drawn from the
supported-format table, the special-extension set, or is `.gz`
(for the universal variant, from its own special and supported tables).
The success qualification does not hold for `.7z` in 0.3.0, whose failures
are swallowed (see the counterexample theorem). -/
theorem c10_unpacked_monotone_and_recognized :
    (∀ (depth : Nat) (path : List Str) (es : EList) (acc : List Str)
      (tr : List RecCall),
      (∀ x ∈ acc, x ∈ (recursive_unpack_paxo depth path es acc tr).2.1) ∧
      (∀ x ∈ (recursive_unpack_paxo depth path es acc tr).2.1,
        x ∈ acc ∨ x ∈ supported_formats ∨ x ∈ special_extensions ∨
          x = ".gz".toList)) ∧
    (∀ (depth : Nat) (es : EList) (acc : List Str),
      (∀ x ∈ acc, x ∈ (recursive_unpack_univ depth es acc).2) ∧
      (∀ x ∈ (recursive_unpack_univ depth es acc).2,
        x ∈ acc ∨ x ∈ special_extensions_univ ∨ x ∈ supported_formats_safe)) := by
  constructor
  · intro depth path es acc tr
    unfold recursive_unpack_paxo recursive_unpack_paxoF
    by_cases hd : MAX_DEPTH ≤ depth
    · rw [if_pos hd]
      exact ⟨fun x hx => hx, fun x hx => Or.inl hx⟩
    · rw [if_neg hd]
      obtain ⟨⟨es2, acc2, tr2⟩, hv⟩ :=
        walk_paxoF_converges (lsize es) es le_rfl depth path acc tr
      rw [hv (lsize es + 1) (Nat.lt_succ_self _)]
      exact walk_paxoF_acc_mono (lsize es + 1) depth path es acc tr
        (es2, acc2, tr2) (hv _ (Nat.lt_succ_self _))
  · intro depth es acc
    unfold recursive_unpack_univ recursive_unpack_univF
    by_cases hd : MAX_DEPTH ≤ depth
    · rw [if_pos hd]
      exact ⟨fun x hx => hx, fun x hx => Or.inl hx⟩
    · rw [if_neg hd]
      obtain ⟨⟨es2, acc2⟩, hv⟩ :=
        walk_univF_converges (lsize es) es le_rfl depth acc
      rw [hv (lsize es + 1) (Nat.lt_succ_self _)]
      exact walk_univF_acc_mono (lsize es + 1) depth es acc (es2, acc2)
        (hv _ (Nat.lt_succ_self _))

/-- Witness for C10: an element present before the call is still present
after it, in both variants. -/
theorem c10_unpacked_monotone_and_recognized_witness :
    ".rar".toList ∈ (recursive_unpack_paxo 0 []
      (.cons (.file "a.zip".toList (.adata .nil)) .nil) [".rar".toList] []).2.1 ∧
    ".rar".toList ∈ (recursive_unpack_univ 0
      (.cons (.file "a.zip".toList (.adata .nil)) .nil) [".rar".toList]).2 :=
  ⟨(c10_unpacked_monotone_and_recognized.1 0 []
      (.cons (.file "a.zip".toList (.adata .nil)) .nil) [".rar".toList] []).1
      ".rar".toList (by decide),
   (c10_unpacked_monotone_and_recognized.2 0
      (.cons (.file "a.zip".toList (.adata .nil)) .nil) [".rar".toList]).1
      ".rar".toList (by decide)⟩

end AE
